import Mathlib

/-!
Verification of the binary wire-codec layer of the edgedb-js client fork:
the arbitrary-precision numeric codecs (bigint / decimal base-10000 digit
groups), the array codec, the growable ring-buffer queue, and the
codec-tree walker used for typed query generation.

Strings are modelled as `List Char`; the 16-byte wire type ids as `String`;
JS numbers holding indices/lengths as `Nat` and the signed 16/32-bit header
fields as `Int`.  Fallible operations return `Except String`.
-/

set_option maxRecDepth 8192

/-! ## Digit-string helpers -/

/-- The JS regex class \d: the ten ASCII digits. -/
def isDigitChar (c : Char) : Bool := 48 ≤ c.toNat && c.toNat ≤ 57

/-- Numeric value of an ASCII digit character. -/
def charVal (c : Char) : Nat := c.toNat - 48

/-- ASCII digit character of a value below ten. -/
def digitChar (d : Nat) : Char := Char.ofNat (48 + d)

/-- Value of a decimal digit string (JS parseInt(s, 10) on all-digit strings,
and the digits part of BigInt(s)). -/
def charsToNat (cs : List Char) : Nat := cs.foldl (fun a c => 10 * a + charVal c) 0

/-- Least-significant-first decimal digits; the first argument bounds the
number of divisions by 10, and n of them always suffice. -/
def decDigitsAux : Nat → Nat → List Nat
  | 0, _ => []
  | fuel+1, n => if n = 0 then [] else n % 10 :: decDigitsAux fuel (n / 10)

/-- Least-significant-first decimal digits of n. -/
def decDigits (n : Nat) : List Nat := decDigitsAux n n

/-- JS Number.prototype.toString(10) for a natural number. -/
def natToChars (n : Nat) : List Char :=
  if n = 0 then ['0'] else (decDigits n).reverse.map digitChar

/-- JS s.padStart(4, "0"). -/
def padStart4 (cs : List Char) : List Char := List.replicate (4 - cs.length) '0' ++ cs

/-! ## The numeric wire payload (src/codecs/numerics.ts) -/

def NUMERIC_POS : Nat := 0x0000

def NUMERIC_NEG : Nat := 0x4000

/-- The numeric wire payload: the header fields and the base-10000 digit groups,
most significant first, as written to the wire.  A well-formed wire stream
carries exactly ndigits digit groups after the header, so ndigits equals
groups.length; the decoders below read the group stream and take its length as
ndigits.  The u32 total-length field is 8 + 2 * ndigits, determined by ndigits,
and is not read by any decoder, so it is not modelled separately. -/
structure NumericPayload where
  ndigits : Nat
  weight : Int
  sign : Nat
  dscale : Nat
  groups : List Nat
deriving DecidableEq, Repr

/-! ## The decimalRegex match

decimalRegex is /^([+-]?)0*(\d+).(\d+)$/ (the dot is unescaped, so it matches
any character except a line terminator).  The functions below reproduce the JS
backtracking search: the optional sign is taken if present; 0* consumes a
maximal run of zeros and backs off one character at a time; the first (\d+)
consumes a maximal digit run and backs off one character at a time; the dot
consumes one character; the final (\d+)$ succeeds exactly when the remainder is
nonempty and all digits. -/

/-- The JS regex wildcard: any character except a line terminator. -/
def isDotChar (c : Char) : Bool :=
  !(c == Char.ofNat 10 || c == Char.ofNat 13 || c == Char.ofNat 0x2028 || c == Char.ofNat 0x2029)

/-- Try the first capture with lengths l, l-1, ..., 1 starting at position k0:
the wildcard must then match at position k0 + length and the remainder must be a
nonempty digit run reaching the end of the input.  Returns the two digit
captures. -/
def tryFracSplit (t : List Char) (k0 : Nat) : Nat → Option (List Char × List Char)
  | 0 => none
  | l+1 =>
    let p := k0 + l + 1
    let rest := t.drop (p+1)
    if p < t.length && isDotChar (t.getD p ' ') && !rest.isEmpty && rest.all isDigitChar then
      some ((t.drop k0).take (l+1), rest)
    else tryFracSplit t k0 l

/-- Try the start positions k0, k0-1, ..., 0 for the first digit capture (0*
consumes the characters before the chosen start, all zeros); at each start the
digit run is maximal and backs off via tryFracSplit. -/
def tryIntStart (t : List Char) : Nat → Option (List Char × List Char)
  | 0 =>
    if isDigitChar (t.getD 0 ' ') then
      tryFracSplit t 0 (t.takeWhile isDigitChar).length
    else none
  | k+1 =>
    (if isDigitChar (t.getD (k+1) ' ') then
      tryFracSplit t (k+1) ((t.drop (k+1)).takeWhile isDigitChar).length
    else none).orElse fun _ => tryIntStart t k

/-- s.match(decimalRegex): the sign, integer-digits and fraction-digits
captures. -/
def decimalMatch (s : List Char) : Option (List Char × List Char × List Char) :=
  let sgn : List Char × List Char :=
    match s with
    | c :: rest => if c = '+' ∨ c = '-' then ([c], rest) else ([], s)
    | [] => ([], [])
  (tryIntStart sgn.2 (sgn.2.takeWhile (fun c => c == '0')).length).map
    fun p => (sgn.1, p.1, p.2)

/-! ## DecimalCodec (src/codecs/numerics.ts lines 179-252) -/

/-- One slice of the encode loop: digitStr.slice(-i-4, -i || undefined), the
four characters ending i from the right (clamped at the left edge). -/
def chunkAt (ds : List Char) (i : Nat) : List Char :=
  (ds.take (ds.length - i)).drop (ds.length - i - 4)

/-- The encode loop for (i = 0; i < l; i += 4), collecting the slices.  The
first argument bounds the iteration count; ds.length passes always suffice
since i advances by 4, and the i < ds.length test is the loop condition. -/
def encChunksAux (ds : List Char) : Nat → Nat → List (List Char)
  | 0, _ => []
  | fuel+1, i => if i < ds.length then chunkAt ds i :: encChunksAux ds fuel (i+4) else []

/-- All slices of the encode loop, least significant first. -/
def encChunks (ds : List Char) : List (List Char) := encChunksAux ds ds.length 0

/-- Body of the encode loop on the parsed group value n: push n if it is
nonzero or the first pushed group is nonzero (n || digits[0]); a nonzero push
records the new length in lastNonZero. -/
def buildStep (st : List Nat × Nat) (n : Nat) : List Nat × Nat :=
  if n ≠ 0 ∨ st.1.headD 0 ≠ 0 then
    (st.1 ++ [n], if n ≠ 0 then st.1.length + 1 else st.2)
  else st

namespace DecimalCodec

/-- DecimalCodec.encode.  The header is written through the Binary Cursor's
fixed-width writes (writeUInt16 ndigits, writeInt16 weight, writeUInt16 sign,
writeUInt16 dscale).  Modelled from the spec: the Binary Cursor (src/buffer,
outside this repository) writes fixed-width u16/i16 integers, so a header value
outside its field's range cannot be written and is modelled as a write error. -/
def encode (s : List Char) : Except String NumericPayload :=
  match decimalMatch s with
  | none => .error "invalid decimal string"
  | some (sgn, int, frac) =>
    let padF := frac ++ List.replicate (((frac.length + 3) / 4) * 4 - frac.length) '0'
    let digitStr := int ++ padF
    let st := ((encChunks digitStr).map charsToNat).foldl buildStep ([], 0)
    let digits := st.1
    let lastNonZero := st.2
    let weight : Int :=
      if lastNonZero ≠ digits.length then (lastNonZero : Int) - (digits.length : Int)
      else ((int.length - 1) / 4 : Nat)
    let digits2 := if lastNonZero ≠ digits.length then digits.take lastNonZero else digits
    if digits2.length < 65536 ∧ -32768 ≤ weight ∧ weight ≤ 32767 ∧ frac.length < 65536 then
      .ok ⟨digits2.length, weight, if sgn = ['-'] then NUMERIC_NEG else NUMERIC_POS,
           frac.length, digits2.reverse⟩
    else .error "numeric field out of range"

/-- DecimalCodec.decode on a well-formed wire payload, given as its header
fields and its ndigits digit groups (most significant first). -/
def decode (weight : Int) (sign : Nat) (dscale : Nat) (groups : List Nat) :
    Except String (List Char) :=
  if sign = NUMERIC_NEG ∨ sign = NUMERIC_POS then
    let isNegative := sign = NUMERIC_NEG
    let lead := if weight < 0 then List.replicate ((-(weight+1)).toNat * 4) '0' else []
    let ds := lead ++ (groups.map fun g => padStart4 (natToChars g)).flatten
    let digitsLength := dscale + (if 0 ≤ weight then (weight+1).toNat * 4 else 0)
    let ds2 :=
      if ds.length < digitsLength then ds ++ List.replicate (digitsLength - ds.length) '0'
      else ds.take digitsLength
    let intPart := if dscale = 0 then [] else ds2.take (ds2.length - dscale)
    let fracPart := if dscale = 0 then ds2 else ds2.drop (ds2.length - dscale)
    let intStr := match intPart.dropWhile (fun c => c == '0') with
      | [] => ['0']
      | l => l
    .ok ((if isNegative then ['-'] else []) ++ intStr ++ '.' :: fracPart)
  else .error "bad bigint sign data"

/-- decode applied to an encoded payload. -/
def decodePayload (p : NumericPayload) : Except String (List Char) :=
  decode p.weight p.sign p.dscale p.groups

/-- decode(encode(s)) for the decimal codec. -/
def roundTrip (s : List Char) : Except String (List Char) :=
  match encode s with
  | .error e => .error e
  | .ok p => decodePayload p

end DecimalCodec

/-! ## BigIntCodec (src/codecs/numerics.ts lines 26-70 and 92-132) -/

namespace BigIntCodec

/-- The while (uval) loop of BigIntCodec.encode: base-10000 remainders of the
absolute value, least significant first.  The first argument bounds the number
of divisions by 10000; n of them always suffice since uval strictly
decreases. -/
def natGroupsAux : Nat → Nat → List Nat
  | 0, _ => []
  | fuel+1, n => if n = 0 then [] else n % 10000 :: natGroupsAux fuel (n / 10000)

/-- The base-10000 digit groups of n, least significant first. -/
def natGroups (n : Nat) : List Nat := natGroupsAux n n

/-- BigIntCodec.encode.  Zero is the special case ndigits = weight = 0 with no
groups.  The weight header field is written as the u16 digits.length - 1 but
read back through readInt16, so a length - 1 of 32768..65535 would come back
negative: the i16 reinterpretation below models that.  Modelled from the spec:
the Binary Cursor (src/buffer, outside this repository) writes fixed-width u16
integers, so ndigits ≥ 65536 cannot be written and is modelled as a write
error. -/
def encode (x : Int) : Except String NumericPayload :=
  if x = 0 then .ok ⟨0, 0, NUMERIC_POS, 0, []⟩
  else
    let sign := if x < 0 then NUMERIC_NEG else NUMERIC_POS
    let digits := natGroups x.natAbs
    if digits.length < 65536 then
      let w := digits.length - 1
      .ok ⟨digits.length, if w < 32768 then (w : Int) else (w : Int) - 65536, sign, 0,
           digits.reverse⟩
    else .error "numeric field out of range"

/-- decodeBigIntToString on a well-formed wire payload (its ndigits digit
groups, most significant first).  The loop walks positions weight, weight-1,
..., 0; position j renders the j-th group (natural width for the first, zero
padded to 4 otherwise) while groups remain, and a literal "0000" after they run
out. -/
def decodeBigIntToString (weight : Int) (sign : Nat) (dscale : Nat) (groups : List Nat) :
    Except String (List Char) :=
  if sign = NUMERIC_POS ∨ sign = NUMERIC_NEG then
    if dscale ≠ 0 then .error "bigint data has fractional part"
    else if groups.length = 0 then .ok ['0']
    else
      let cnt := if 0 ≤ weight then (weight + 1).toNat else 0
      let body := (List.range cnt).foldl (fun acc j =>
        acc ++ (if j < groups.length then
                  (if 0 < j then padStart4 (natToChars (groups.getD j 0))
                   else natToChars (groups.getD j 0))
                else ['0', '0', '0', '0'])) []
      .ok ((if sign = NUMERIC_NEG then ['-'] else []) ++ body)
  else .error "bad bigint sign data"

/-- The host BigInt(string) conversion applied to the decoder's output.
Modelled from the spec: the host's arbitrary-precision integer type converts a
decimal string (an optional sign followed by digits; the empty string converts
to 0, anything else malformed throws). -/
def jsBigIntOfString (cs : List Char) : Option Int :=
  match cs with
  | [] => some 0
  | c :: rest =>
    if c = '-' then
      (if rest ≠ [] ∧ rest.all isDigitChar then some (-(charsToNat rest : Int)) else none)
    else if c = '+' then
      (if rest ≠ [] ∧ rest.all isDigitChar then some ((charsToNat rest : Int)) else none)
    else (if (c :: rest).all isDigitChar then some ((charsToNat (c :: rest) : Int)) else none)

/-- BigIntCodec.decode: the decoded string converted by the host BigInt. -/
def decode (weight : Int) (sign : Nat) (dscale : Nat) (groups : List Nat) :
    Except String Int :=
  match decodeBigIntToString weight sign dscale groups with
  | .error e => .error e
  | .ok s =>
    match jsBigIntOfString s with
    | some v => .ok v
    | none => .error "invalid bigint string"

/-- decode(encode(x)) for the big-integer codec. -/
def roundTrip (x : Int) : Except String Int :=
  match encode x with
  | .error e => .error e
  | .ok p => decode p.weight p.sign p.dscale p.groups

end BigIntCodec

/-! ## RingBuffer (the growable queue) -/

/-- The ring buffer state: backing storage (a slot is none when unset or
cleared, modelling undefined), the pending-item counter len, the reader and
writer cursors, and the current capacity. -/
structure RingBuffer (α : Type) where
  buffer : List (Option α)
  len : Nat
  reader : Nat
  writer : Nat
  capacity : Nat
deriving DecidableEq, Repr

namespace RingBuffer

/-- The constructor: fails on a non-positive capacity or one at or above
0xffffffff; otherwise all-empty storage with reader = writer = len = 0. -/
def init (α : Type) (capacity : Nat) : Except String (RingBuffer α) :=
  if capacity = 0 ∨ 4294967295 ≤ capacity then .error "invalid capacity"
  else .ok ⟨List.replicate capacity none, 0, 0, 0, capacity⟩

/-- The full getter: always false. -/
def full (_ : RingBuffer α) : Bool := false

/-- The copy loop of _resize: for (i = reader; i < inc; i++) moves slot i to
slot i + inc and clears slot i.  Arguments: the storage, inc, the remaining
iteration count inc - i, and i. -/
def resizeLoop (inc : Nat) : List (Option α) → Nat → Nat → List (Option α)
  | buf, 0, _ => buf
  | buf, steps+1, i => resizeLoop inc ((buf.set (i + inc) (buf.getD i none)).set i none) steps (i+1)

/-- _resize: double the capacity (extending storage with empty slots), move
the slots from reader up to the old capacity upward by the old capacity, and
advance reader by the old capacity. -/
def resize (q : RingBuffer α) : RingBuffer α :=
  let inc := q.capacity
  let buf := resizeLoop inc (q.buffer ++ List.replicate inc none) (inc - q.reader) q.reader
  { q with capacity := q.capacity + inc, buffer := buf, reader := q.reader + inc }

/-- enq: grow first when saturated (reader = writer with items pending), then
store at writer, advance writer mod capacity, increment len. -/
def enq (q : RingBuffer α) (x : α) : RingBuffer α :=
  let q := if q.reader = q.writer ∧ 0 < q.len then resize q else q
  { q with buffer := q.buffer.set q.writer (some x),
           writer := (q.writer + 1) % q.capacity,
           len := q.len + 1 }

/-- deq: the empty sentinel when reader = writer; otherwise return the slot at
reader, clear it, advance reader mod capacity, decrement len. -/
def deq (q : RingBuffer α) : Option α × RingBuffer α :=
  if q.reader = q.writer then (none, q)
  else
    (q.buffer.getD q.reader none,
     { q with buffer := q.buffer.set q.reader none,
              reader := (q.reader + 1) % q.capacity,
              len := q.len - 1 })

/-- The while (reader !== writer) loop of clear, releasing the pending slots.
The third argument bounds the iterations: reader advances mod capacity toward
writer, so capacity passes always suffice. -/
def clearLoop (w cap : Nat) : List (Option α) → Nat → Nat → List (Option α)
  | buf, 0, _ => buf
  | buf, fuel+1, r => if r = w then buf else clearLoop w cap (buf.set r none) fuel ((r+1) % cap)

/-- clear: release the pending slots (when len is nonzero), then reset
reader = writer = len = 0. -/
def clear (q : RingBuffer α) : RingBuffer α :=
  let buf := if q.len ≠ 0 then clearLoop q.writer q.capacity q.buffer q.capacity q.reader
             else q.buffer
  { q with buffer := buf, reader := 0, writer := 0, len := 0 }

/-- n successive dequeues, collecting the returned values. -/
def deqN (q : RingBuffer α) : Nat → List (Option α)
  | 0 => []
  | n+1 =>
    let p := deq q
    p.1 :: deqN p.2 n

end RingBuffer

/-! ## ArrayCodec (src/codecs/array.ts)

The element codec is abstracted by its isScalar flag and its encode/decode
functions; β is the type of an element's encoded byte blob.  The input of
encode is modelled as a JS array (the Array.isArray / isTypedArray array-like
check passes on it); a null (or undefined) element is none. -/

/-- The array wire payload after the total-length word: the dimension count,
the flags word, the declared length and lower bound of the single dimension,
and the element stream (none is the length -1 null marker, some b an element
blob).  A well-formed stream carries exactly len elements, so len equals
elems.length on the ndims = 1 path; the decoder below reads the element stream
and checks that. -/
structure ArrayWire (β : Type) where
  ndims : Int
  flags : Int
  len : Nat
  lowerBound : Int
  elems : List (Option β)
deriving DecidableEq, Repr

namespace ArrayCodec

/-- The isScalar flag of ArrayCodec itself: always false. -/
def isScalar : Bool := false

/-- ArrayCodec.encode: reject a non-scalar element codec, then an element
count above the maximum signed 32-bit value, then encode each element (null
becomes the -1 marker) and emit the single-dimension payload. -/
def encode (subIsScalar : Bool) (subEncode : α → Except String β)
    (obj : List (Option α)) : Except String (ArrayWire β) :=
  if subIsScalar = false then .error "only arrays of scalars are supported"
  else if 0x7fffffff < obj.length then .error "too many elements in array"
  else
    match obj.mapM (fun item => (match item with
      | none => .ok none
      | some v => (subEncode v).map some : Except String (Option β))) with
    | .error e => .error e
    | .ok elems => .ok ⟨1, 0, obj.length, 1, elems⟩

/-- ArrayCodec.decode: ndims = 0 returns the canonical empty sequence before
anything else is read; any other ndims but 1 is a dimensionality error; on the
ndims = 1 path the declared length is checked against the configured fixed
length (cfgLen, -1 meaning variable), then the elements are decoded (the -1
marker becomes null). -/
def decode (cfgLen : Int) (subDecode : β → Except String α) (w : ArrayWire β) :
    Except String (List (Option α)) :=
  if w.ndims = 0 then .ok []
  else if w.ndims ≠ 1 then .error "only 1-dimensional arrays are supported"
  else if cfgLen ≠ -1 ∧ (w.len : Int) ≠ cfgLen then
    .error ("invalid array size: received " ++ toString w.len ++ ", expected " ++ toString cfgLen)
  else if w.len ≠ w.elems.length then .error "buffer overread"
  else
    match w.elems.mapM (fun e => (match e with
      | none => .ok none
      | some b => (subDecode b).map some : Except String (Option α))) with
    | .error e => .error e
    | .ok result => .ok result

end ArrayCodec

/-! ## The codec-tree walker (the typegen script)

The codec graph is a closed set of variants; ObjectCodec and NamedTupleCodec
carry their field names and sub-codecs as two parallel arrays, as in the
source.  The KNOWN_TYPES id-to-name table lives in src/codecs/codecs, outside
this repository, so the walker takes it as a parameter kt.  The mutable
imports set is threaded through as a list with insertion-order dedup. -/

inductive Codec where
  | scalar (tid : String)
  | enum (tid : String)
  | obj (names : List String) (codecs : List Codec)
  | set (subCodec : Codec)
  | tup (subCodecs : List Codec)
  | ntup (names : List String) (subCodecs : List Codec)
  | etup
  | arr (subCodec : Codec)
deriving Repr

/-- imports.add(t): a JS Set keeps insertion order and ignores duplicates. -/
def addImport (imports : List String) (t : String) : List String :=
  if t ∈ imports then imports else imports ++ [t]

/-- The scalar-type table ScalarTypings: target type and needs-import flag. -/
structure TypingInfo where
  type : String
  needsImport : Bool
deriving DecidableEq, Repr

def ScalarTypings : List (String × TypingInfo) := [
  ("std::uuid",           ⟨"UUID", true⟩),
  ("std::str",            ⟨"string", false⟩),
  ("std::bytes",          ⟨"Buffer", false⟩),
  ("std::int16",          ⟨"number", false⟩),
  ("std::int32",          ⟨"number", false⟩),
  ("std::int64",          ⟨"number", false⟩),
  ("std::float32",        ⟨"number", false⟩),
  ("std::float64",        ⟨"number", false⟩),
  ("std::bool",           ⟨"boolean", false⟩),
  ("std::datetime",       ⟨"Date", false⟩),
  ("std::local_datetime", ⟨"LocalDateTime", true⟩),
  ("std::local_date",     ⟨"LocalDate", true⟩),
  ("std::local_time",     ⟨"LocalTime", true⟩),
  ("std::duration",       ⟨"Duration", true⟩),
  ("std::json",           ⟨"string", false⟩),
  ("std::bigint",         ⟨"bigint", false⟩)]

/-- wrapType: the wrapper name and angle brackets merged into the first and
last lines of the fragment (both the same line for a one-line fragment).  On
the empty fragment JS reads type[0] as undefined and coerces it into the
string. -/
def wrapType (ty : List String) (withType : String) : List String :=
  (withType ++ "<" ++ ty.headD "undefined" ++ (if ty.length = 1 then ">" else "")) ::
  ((if 2 < ty.length then (ty.drop 1).dropLast else []) ++
   (if 1 < ty.length then [(ty.getLastD "undefined") ++ ">"] else []))

mutual

/-- walkCodec: dispatch over the codec variants, producing the rendered type
fragment and the updated imports. -/
def walkCodec (kt : String → Option String) :
    Codec → List String → Except String (List String × List String)
  | .obj names codecs, imports => generateObjectType kt names codecs imports
  | .set subCodec, imports =>
    match walkCodec kt subCodec (addImport imports "Set") with
    | .error e => .error e
    | .ok (subType, i2) => .ok (wrapType subType "Set", i2)
  | .tup subCodecs, imports => generateTupleType kt subCodecs imports
  | .ntup names subCodecs, imports =>
    match generateTupleType kt subCodecs imports with
    | .error e => .error e
    | .ok (tupleType, i2) =>
      match generateObjectType kt names subCodecs i2 with
      | .error e => .error e
      | .ok (objectType, i3) =>
        .ok (tupleType.dropLast ++
             [(tupleType.getLastD "undefined") ++ " & " ++ objectType.headD "undefined"] ++
             objectType.drop 1, i3)
  | .etup, imports => .ok ([], imports)
  | .arr subCodec, imports =>
    match walkCodec kt subCodec imports with
    | .error e => .error e
    | .ok (subType, i2) =>
      .ok (subType.dropLast ++ [(subType.getLastD "undefined") ++ "[]"], i2)
  | .enum _, imports => .ok (["string"], imports)
  | .scalar tid, imports =>
    match kt tid with
    | none => .error "Unknown scalar type"
    | some typeName =>
      match ScalarTypings.lookup typeName with
      | none => .error ("No codec for scalar type " ++ typeName)
      | some info =>
        .ok ([info.type], if info.needsImport then addImport imports info.type else imports)

/-- generateObjectType: the field lines wrapped in brace lines. -/
def generateObjectType (kt : String → Option String) (names : List String)
    (codecs : List Codec) (imports : List String) :
    Except String (List String × List String) :=
  match objFields kt names codecs imports with
  | .error e => .error e
  | .ok (lines, i2) => .ok ("\x7b" :: (lines ++ ["\x7d"]), i2)

/-- The flatMap over field names: field i renders "  name: first-line" and the
remaining lines of its fragment indented.  A name beyond the codecs array
reads codecs[i] as undefined, which walkCodec rejects as an unknown codec. -/
def objFields (kt : String → Option String) :
    List String → List Codec → List String → Except String (List String × List String)
  | [], _, imports => .ok ([], imports)
  | _ :: _, [], _ => .error "Unknown codec"
  | name :: names, c :: cs, imports =>
    match walkCodec kt c imports with
    | .error e => .error e
    | .ok (frag, i2) =>
      match objFields kt names cs i2 with
      | .error e => .error e
      | .ok (lines, i3) =>
        .ok (("  " ++ name ++ ": " ++ frag.headD "") ::
             ((frag.drop 1).map (fun l => "  " ++ l) ++ lines), i3)

/-- generateTupleType: the element lines wrapped in bracket lines. -/
def generateTupleType (kt : String → Option String) (codecs : List Codec)
    (imports : List String) : Except String (List String × List String) :=
  match tupElems kt codecs imports with
  | .error e => .error e
  | .ok (lines, i2) => .ok ("[" :: (lines ++ ["]"]), i2)

/-- The flatMap over tuple elements: every line of an element's fragment is
indented, with a comma appended on every element except the last. -/
def tupElems (kt : String → Option String) :
    List Codec → List String → Except String (List String × List String)
  | [], imports => .ok ([], imports)
  | c :: cs, imports =>
    match walkCodec kt c imports with
    | .error e => .error e
    | .ok (frag, i2) =>
      match tupElems kt cs i2 with
      | .error e => .error e
      | .ok (lines, i3) =>
        .ok (frag.map (fun l => "  " ++ l ++ (if cs.isEmpty then "" else ",")) ++ lines, i3)

end

/-! ## Helper lemmas for the walker theorems -/

theorem mem_addImport_self (l : List String) (t : String) : t ∈ addImport l t := by
  unfold addImport
  by_cases h : t ∈ l
  · simp [h]
  · simp [h]

theorem mem_addImport_of_mem {a : String} {l : List String} (t : String) (h : a ∈ l) :
    a ∈ addImport l t := by
  unfold addImport
  by_cases ht : t ∈ l
  · simpa [ht]
  · simp [ht, h]

/-! ## Claim theorems: the decimal codec evaluations -/

/-- C1: decoding the wire payload ndigits = 1, weight = 0, sign = positive,
dscale = 0, single digit group 5 returns "0.0005", not an integer part "5" with
zero fractional digits: with dscale = 0 the JS slices digits.slice(0, -0) and
digits.slice(-0) evaluate to the empty string (rendered "0") and to the whole
digit string, so the value 5 is rendered as "0.0005". -/
theorem decimal_decode_dscale_zero_eval :
    DecimalCodec.decode 0 NUMERIC_POS 0 [5] = .ok "0.0005".toList := by rfl

/-- C3 counterexample: encoding "1.50" yields ndigits = 2 (digit groups 1 and
5000), not ndigits = 1; and decoding the claimed bytes ndigits = 1, weight = 0,
positive, dscale = 2, single group 1 returns "1.00", not "1.50". -/
theorem decimal_vector_150_counterexample :
    (DecimalCodec.encode "1.50".toList).map NumericPayload.ndigits = .ok 2 ∧
    DecimalCodec.decode 0 NUMERIC_POS 2 [1] = .ok "1.00".toList ∧
    DecimalCodec.decode 0 NUMERIC_POS 2 [1] ≠ .ok "1.50".toList := by
  refine ⟨rfl, rfl, fun h => ?_⟩
  rw [show DecimalCodec.decode 0 NUMERIC_POS 2 [1] = Except.ok "1.00".toList from rfl] at h
  exact absurd (Except.ok.inj h) (by decide)

/-- C3 amended: "1.50" encodes to weight = 0, ndigits = 2 (digit groups 1 and
5000) and dscale = 2, and decoding exactly those bytes returns "1.50". -/
theorem decimal_vector_150_amended :
    DecimalCodec.encode "1.50".toList = .ok ⟨2, 0, NUMERIC_POS, 2, [1, 5000]⟩ ∧
    DecimalCodec.decode 0 NUMERIC_POS 2 [1, 5000] = .ok "1.50".toList :=
  ⟨rfl, rfl⟩

/-- C4: the unescaped dot of decimalRegex matches any character, so the
all-digit string "123" (no decimal-point character) is accepted by
DecimalCodec.encode instead of failing with "invalid decimal string": it is
captured as integer part "1", wildcard "2", fraction "3", and encodes exactly
like "1.3". -/
theorem decimal_encode_accepts_no_dot_eval :
    decimalMatch "123".toList = some ([], "1".toList, "3".toList) ∧
    DecimalCodec.encode "123".toList = DecimalCodec.encode "1.3".toList ∧
    DecimalCodec.encode "123".toList = .ok ⟨2, 0, NUMERIC_POS, 1, [1, 3000]⟩ :=
  ⟨rfl, rfl, rfl⟩

/-- C7: the four decimal round-trip vectors decode(encode(x)) = x hold exactly,
and for each the encoded dscale equals the original fractional-digit count
(2, 4, 3, 1) despite any trailing zero-group stripping. -/
theorem decimal_roundtrip_vectors :
    (DecimalCodec.roundTrip "0.00".toList = .ok "0.00".toList ∧
     (DecimalCodec.encode "0.00".toList).map NumericPayload.dscale = .ok 2) ∧
    (DecimalCodec.roundTrip "123.4500".toList = .ok "123.4500".toList ∧
     (DecimalCodec.encode "123.4500".toList).map NumericPayload.dscale = .ok 4) ∧
    (DecimalCodec.roundTrip "-0.001".toList = .ok "-0.001".toList ∧
     (DecimalCodec.encode "-0.001".toList).map NumericPayload.dscale = .ok 3) ∧
    (DecimalCodec.roundTrip "99999999999999999999.1".toList =
       .ok "99999999999999999999.1".toList ∧
     (DecimalCodec.encode "99999999999999999999.1".toList).map NumericPayload.dscale = .ok 1) :=
  ⟨⟨rfl, rfl⟩, ⟨rfl, rfl⟩, ⟨rfl, rfl⟩, ⟨rfl, rfl⟩⟩

/-! ## Claim theorems: the ring buffer evaluations -/

/-- C2: a freshly constructed capacity-1 queue after one enqueue is saturated
(reader = writer = 0 with len = 1), and dequeue then returns the empty sentinel
even though one item is pending: deq tests only reader = writer, which does not
imply len = 0. -/
theorem ringbuffer_deq_saturated_eval :
    (RingBuffer.init Nat 1).map (fun q0 =>
      let q1 := q0.enq 7
      (q1.reader, q1.writer, q1.len, (RingBuffer.deq q1).1)) = .ok (0, 0, 1, none) := by rfl

/-- C6: with initial capacity 2, four enqueues (growing the buffer once) leave
the queue saturated at reader = writer with len = 4, and the four dequeues all
return the empty sentinel instead of the enqueued 1, 2, 3, 4. -/
theorem ringbuffer_fifo_broken_eval :
    (RingBuffer.init Nat 2).map (fun q0 =>
      RingBuffer.deqN ((((q0.enq 1).enq 2).enq 3).enq 4) 4) =
    .ok [none, none, none, none] := by rfl

/-! ## Claim theorems: the array codec -/

/-- C8: array decode of a payload with ndims = 0 returns the canonical empty
sequence; decode of any ndims other than 0 and 1 fails with the dimensionality
error; and encode fails with the scalars-only error whenever the element codec
is not scalar — in particular with ArrayCodec.isScalar itself, i.e. when the
element codec is an array codec. -/
theorem array_codec_errors :
    (∀ (α β : Type) (cfgLen : Int) (subDecode : β → Except String α) (w : ArrayWire β),
      w.ndims = 0 → ArrayCodec.decode cfgLen subDecode w = .ok []) ∧
    (∀ (α β : Type) (cfgLen : Int) (subDecode : β → Except String α) (w : ArrayWire β),
      w.ndims ≠ 0 → w.ndims ≠ 1 →
      ArrayCodec.decode cfgLen subDecode w = .error "only 1-dimensional arrays are supported") ∧
    (∀ (α β : Type) (subIsScalar : Bool) (subEncode : α → Except String β)
      (obj : List (Option α)), subIsScalar = false →
      ArrayCodec.encode subIsScalar subEncode obj =
        .error "only arrays of scalars are supported") ∧
    (∀ (α β : Type) (subEncode : α → Except String β) (obj : List (Option α)),
      ArrayCodec.encode ArrayCodec.isScalar subEncode obj =
        .error "only arrays of scalars are supported") := by
  refine ⟨?_, ?_, ?_, ?_⟩ <;> intros <;>
    simp [ArrayCodec.decode, ArrayCodec.encode, ArrayCodec.isScalar, *]

/-- Witness for C8 at concrete inputs. -/
theorem array_codec_errors_witness :
    ArrayCodec.decode (-1) (fun b : Nat => Except.ok b) ⟨0, 0, 0, 1, []⟩ = .ok [] ∧
    ArrayCodec.decode (-1) (fun b : Nat => Except.ok b) ⟨2, 0, 0, 1, []⟩ =
      .error "only 1-dimensional arrays are supported" ∧
    ArrayCodec.encode ArrayCodec.isScalar (fun b : Nat => Except.ok b) [some 3] =
      .error "only arrays of scalars are supported" :=
  ⟨array_codec_errors.1 Nat Nat (-1) _ _ rfl,
   array_codec_errors.2.1 Nat Nat (-1) _ _ (by decide) (by decide),
   array_codec_errors.2.2.2 Nat Nat _ [some 3]⟩

/-- C10: for every configured fixed length other than -1 (including positive
lengths), decoding a payload with ndims = 0 returns the canonical empty
sequence: the fixed-length check runs only on the ndims = 1 path, so the
"invalid array size" error is never raised there. -/
theorem array_fixed_len_ndims_zero :
    ∀ (α β : Type) (cfgLen : Int), cfgLen ≠ -1 →
    ∀ (subDecode : β → Except String α) (w : ArrayWire β), w.ndims = 0 →
    ArrayCodec.decode cfgLen subDecode w = .ok [] := by
  intros α β cfgLen hlen subDecode w hnd
  simp [ArrayCodec.decode, hnd]

/-- Witness for C10 at the concrete fixed length 5. -/
theorem array_fixed_len_ndims_zero_witness :
    ArrayCodec.decode 5 (fun b : Nat => Except.ok b) ⟨0, 0, 0, 1, []⟩ = .ok [] :=
  array_fixed_len_ndims_zero Nat Nat 5 (by decide) _ _ rfl

/-! ## Claim theorems: the codec-tree walker -/

/-- C9: on an object codec with two scalar-leaf fields whose type ids resolve
in the name and scalar-type tables, walkCodec renders exactly 2 + 2 = 4 lines:
an opening brace line, one line per field in declaration order, and a closing
brace line; on a set codec over such a scalar leaf it renders the scalar's
one-line fragment wrapped exactly once in the generic Set wrapper and records
"Set" among the needed imports. -/
theorem walker_object_and_set :
    ∀ (kt : String → Option String) (imports : List String)
      (n1 n2 t1 t2 name1 name2 : String) (info1 info2 : TypingInfo),
      kt t1 = some name1 → kt t2 = some name2 →
      ScalarTypings.lookup name1 = some info1 → ScalarTypings.lookup name2 = some info2 →
      ((walkCodec kt (.obj [n1, n2] [.scalar t1, .scalar t2]) imports).map Prod.fst =
        .ok ["\x7b", "  " ++ n1 ++ ": " ++ info1.type,
             "  " ++ n2 ++ ": " ++ info2.type, "\x7d"]) ∧
      ((walkCodec kt (.set (.scalar t1)) imports).map Prod.fst =
        .ok ["Set<" ++ info1.type ++ ">"]) ∧
      (∀ r, walkCodec kt (.set (.scalar t1)) imports = .ok r → "Set" ∈ r.2) := by
  intro kt imports n1 n2 t1 t2 name1 name2 info1 info2 h1 h2 h3 h4
  refine ⟨?_, ?_, ?_⟩
  · by_cases hn1 : info1.needsImport <;> by_cases hn2 : info2.needsImport <;>
      simp [walkCodec, generateObjectType, objFields, Except.map, h1, h2, h3, h4, hn1, hn2]
  · by_cases hn1 : info1.needsImport <;>
      simp [walkCodec, wrapType, Except.map, h1, h3, hn1]
  · intro r hr
    by_cases hn1 : info1.needsImport
    · simp only [walkCodec, wrapType, h1, h3, hn1, if_true] at hr
      obtain rfl := Except.ok.inj hr
      exact mem_addImport_of_mem _ (mem_addImport_self imports "Set")
    · rw [Bool.not_eq_true] at hn1
      simp only [walkCodec, wrapType, h1, h3, hn1, Bool.false_eq_true, if_false] at hr
      obtain rfl := Except.ok.inj hr
      exact mem_addImport_self imports "Set"

/-- A concrete id-to-name table for the walker witness. -/
def ktWitness : String → Option String :=
  fun t => if t = "0101" then some "std::str" else if t = "0202" then some "std::uuid" else none

/-- Witness for C9 at a concrete two-field object codec and set codec. -/
theorem walker_object_and_set_witness :
    ((walkCodec ktWitness (.obj ["a", "b"] [.scalar "0101", .scalar "0202"]) []).map Prod.fst =
      .ok ["\x7b", "  a: string", "  b: UUID", "\x7d"]) ∧
    ((walkCodec ktWitness (.set (.scalar "0101")) []).map Prod.fst = .ok ["Set<string>"]) ∧
    (∀ r, walkCodec ktWitness (.set (.scalar "0101")) [] = .ok r → "Set" ∈ r.2) := by
  have h := walker_object_and_set ktWitness [] "a" "b" "0101" "0202" "std::str" "std::uuid"
    ⟨"string", false⟩ ⟨"UUID", true⟩ rfl rfl rfl rfl
  exact ⟨h.1, h.2.1, h.2.2⟩

/-! ## Digit-string lemmas -/

theorem charVal_digitChar {d : Nat} (h : d < 10) : charVal (digitChar d) = d := by
  interval_cases d <;> rfl

theorem isDigitChar_digitChar {d : Nat} (h : d < 10) : isDigitChar (digitChar d) = true := by
  interval_cases d <;> rfl

theorem digitChar_charVal {c : Char} (h : isDigitChar c = true) : digitChar (charVal c) = c := by
  have hb : 48 ≤ c.toNat ∧ c.toNat ≤ 57 := by
    simpa [isDigitChar, Bool.and_eq_true, decide_eq_true_eq] using h
  unfold digitChar charVal
  rw [show 48 + (c.toNat - 48) = c.toNat by omega]
  exact Char.ofNat_toNat c

theorem charVal_lt_ten {c : Char} (h : isDigitChar c = true) : charVal c < 10 := by
  have hb : 48 ≤ c.toNat ∧ c.toNat ≤ 57 := by
    simpa [isDigitChar, Bool.and_eq_true, decide_eq_true_eq] using h
  unfold charVal
  omega

theorem digitChar_ne_dash {d : Nat} (h : d < 10) : digitChar d ≠ '-' := by
  interval_cases d <;> decide

theorem charVal_zero_char : charVal '0' = 0 := rfl

theorem isDigitChar_not_dash {c : Char} (h : isDigitChar c = true) : c ≠ '-' := by
  intro hc
  subst hc
  simp [isDigitChar] at h

theorem isDigitChar_not_plus {c : Char} (h : isDigitChar c = true) : c ≠ '+' := by
  intro hc
  subst hc
  simp [isDigitChar] at h

theorem isDigitChar_not_dot {c : Char} (h : isDigitChar c = true) : c ≠ '.' := by
  intro hc
  subst hc
  simp [isDigitChar] at h

theorem decDigitsAux_eq_digits : ∀ fuel n : Nat, n ≤ fuel → decDigitsAux fuel n = Nat.digits 10 n := by
  intro fuel
  induction fuel with
  | zero =>
    intro n hn
    have : n = 0 := by omega
    subst this
    simp [decDigitsAux]
  | succ f ih =>
    intro n hn
    by_cases h0 : n = 0
    · subst h0; simp [decDigitsAux]
    · rw [decDigitsAux, if_neg h0, Nat.digits_def' (by norm_num) (Nat.pos_of_ne_zero h0),
          ih (n / 10) (by omega)]

theorem decDigits_eq_digits (n : Nat) : decDigits n = Nat.digits 10 n :=
  decDigitsAux_eq_digits n n le_rfl

/-- Folding the digit-accumulation step from an arbitrary accumulator. -/
theorem charsToNat_foldl (acc : Nat) (b : List Char) :
    b.foldl (fun a c => 10 * a + charVal c) acc = acc * 10 ^ b.length + charsToNat b := by
  induction b generalizing acc with
  | nil => simp [charsToNat]
  | cons c cs ih =>
    simp only [List.foldl_cons, charsToNat, List.length_cons]
    rw [ih (10 * acc + charVal c), ih (10 * 0 + charVal c)]
    ring

theorem charsToNat_append (a b : List Char) :
    charsToNat (a ++ b) = charsToNat a * 10 ^ b.length + charsToNat b := by
  unfold charsToNat
  rw [List.foldl_append]
  exact charsToNat_foldl _ b

theorem charsToNat_cons (c : Char) (cs : List Char) :
    charsToNat (c :: cs) = charVal c * 10 ^ cs.length + charsToNat cs := by
  have := charsToNat_append [c] cs
  simpa [charsToNat] using this

theorem charsToNat_replicate_zero (k : Nat) : charsToNat (List.replicate k '0') = 0 := by
  induction k with
  | zero => rfl
  | succ n ih =>
    rw [List.replicate_succ, charsToNat_cons, ih]
    simp [charVal]

theorem charsToNat_lt_pow (cs : List Char) (h : ∀ c ∈ cs, isDigitChar c = true) :
    charsToNat cs < 10 ^ cs.length := by
  induction cs with
  | nil => simp [charsToNat]
  | cons c cs ih =>
    rw [charsToNat_cons]
    have hc := charVal_lt_ten (h c (by simp))
    have hcs := ih (fun x hx => h x (by simp [hx]))
    have : charVal c * 10 ^ cs.length ≤ 9 * 10 ^ cs.length := by
      exact Nat.mul_le_mul_right _ (by omega)
    calc charVal c * 10 ^ cs.length + charsToNat cs
        ≤ 9 * 10 ^ cs.length + charsToNat cs := by omega
      _ < 9 * 10 ^ cs.length + 10 ^ cs.length := by omega
      _ = 10 ^ (c :: cs).length := by simp [List.length_cons]; ring

/-- The fold of most-significant-first digit values below b equals ofDigits of
the reversed (least-significant-first) list. -/
theorem foldl_msb_eq_ofDigits (b : Nat) (D : List Nat) :
    D.reverse.foldl (fun a d => b * a + d) 0 = Nat.ofDigits b D := by
  induction D with
  | nil => simp [Nat.ofDigits]
  | cons d tl ih =>
    rw [List.reverse_cons, List.foldl_append, ih, Nat.ofDigits_cons]
    simp [Nat.mul_comm]
    omega

theorem natFoldl_shift : ∀ (D : List Nat) (acc : Nat),
    D.foldl (fun a d => 10 * a + d) acc = acc * 10 ^ D.length + D.foldl (fun a d => 10 * a + d) 0 := by
  intro D
  induction D with
  | nil => intro acc; simp
  | cons d tl ih =>
    intro acc
    simp only [List.foldl_cons]
    rw [ih (10 * acc + d), ih (10 * 0 + d), List.length_cons, pow_succ]
    ring

theorem charsToNat_map_digitChar (D : List Nat) (h : ∀ d ∈ D, d < 10) :
    charsToNat (D.map digitChar) = D.foldl (fun a d => 10 * a + d) 0 := by
  induction D with
  | nil => rfl
  | cons d tl ih =>
    rw [List.map_cons, charsToNat_cons, List.length_map,
        charVal_digitChar (h d (by simp)), ih (fun x hx => h x (by simp [hx])),
        List.foldl_cons, natFoldl_shift tl (10 * 0 + d)]
    norm_num

theorem charsToNat_natToChars (n : Nat) : charsToNat (natToChars n) = n := by
  unfold natToChars
  by_cases h0 : n = 0
  · subst h0; rfl
  · rw [if_neg h0, decDigits_eq_digits,
        charsToNat_map_digitChar _
          (fun d hd => Nat.digits_lt_base (by norm_num) (List.mem_reverse.mp hd)),
        foldl_msb_eq_ofDigits 10, Nat.ofDigits_digits]

theorem natToChars_ne_nil (n : Nat) : natToChars n ≠ [] := by
  unfold natToChars
  by_cases h0 : n = 0
  · simp [h0]
  · rw [if_neg h0, decDigits_eq_digits]
    simp [Nat.digits_ne_nil_iff_ne_zero.mpr h0]

theorem natToChars_all_digit (n : Nat) : ∀ c ∈ natToChars n, isDigitChar c = true := by
  unfold natToChars
  by_cases h0 : n = 0
  · simp [h0]
    decide
  · rw [if_neg h0, decDigits_eq_digits]
    intro c hc
    simp only [List.mem_map, List.mem_reverse] at hc
    obtain ⟨d, hd, rfl⟩ := hc
    exact isDigitChar_digitChar (Nat.digits_lt_base (by norm_num) hd)

theorem digits_len_le_of_lt_pow {b n k : Nat} (hb : 1 < b) (h : n < b ^ k) :
    (Nat.digits b n).length ≤ k := by
  by_contra hlt
  push_neg at hlt
  by_cases h0 : n = 0
  · subst h0; simp at hlt
  · have h1 := Nat.base_pow_length_digits_le b n hb h0
    have h2 : b ^ (k + 1) ≤ b ^ (Nat.digits b n).length :=
      Nat.pow_le_pow_right (by omega) (by omega)
    have h3 : b ^ (k + 1) ≤ b * n := le_trans h2 h1
    rw [pow_succ] at h3
    have h4 : b ^ k ≤ n := by
      have hbpos : 0 < b := by omega
      nlinarith
    omega

theorem natToChars_length_le {n k : Nat} (hk : 0 < k) (h : n < 10 ^ k) :
    (natToChars n).length ≤ k := by
  unfold natToChars
  by_cases h0 : n = 0
  · simp [h0]; omega
  · rw [if_neg h0]
    simp only [List.length_map, List.length_reverse, decDigits_eq_digits]
    exact digits_len_le_of_lt_pow (by norm_num) h

theorem dropWhile_head_false {α : Type} (p : α → Bool) :
    ∀ (l : List α) (c : α) (rest : List α), l.dropWhile p = c :: rest → p c = false := by
  intro l
  induction l with
  | nil => intro c rest h; simp [List.dropWhile] at h
  | cons x xs ih =>
    intro c rest h
    rw [List.dropWhile_cons] at h
    by_cases hx : p x = true
    · rw [if_pos hx] at h
      exact ih c rest h
    · rw [if_neg hx] at h
      obtain ⟨rfl, _⟩ := List.cons.inj h
      exact Bool.not_eq_true _ |>.mp hx

theorem char_eq_of_toNat {c d : Char} (h : c.toNat = d.toNat) : c = d := by
  have h1 := Char.ofNat_toNat c
  have h2 := Char.ofNat_toNat d
  rw [← h1, ← h2, h]

theorem charVal_ne_zero {c : Char} (hd : isDigitChar c = true) (h : c ≠ '0') :
    charVal c ≠ 0 := by
  have hb : 48 ≤ c.toNat ∧ c.toNat ≤ 57 := by
    simpa [isDigitChar, Bool.and_eq_true, decide_eq_true_eq] using hd
  intro hv
  unfold charVal at hv
  refine h (char_eq_of_toNat ?_)
  rw [show ('0').toNat = 48 from rfl]
  omega

theorem charsToNat_eq_fold_map (cs : List Char) :
    charsToNat cs = (cs.map charVal).foldl (fun a d => 10 * a + d) 0 := by
  unfold charsToNat
  rw [List.foldl_map]

theorem all_zero_eq_replicate {C : List Char} (h : ∀ c ∈ C, c = '0') :
    C = List.replicate C.length '0' :=
  List.eq_replicate_iff.mpr ⟨rfl, h⟩

theorem charsToNat_all_zero {C : List Char} (h : ∀ c ∈ C, c = '0') : charsToNat C = 0 := by
  rw [all_zero_eq_replicate h]
  exact charsToNat_replicate_zero _

/-- The base-10 digits of the most-significant-first fold of a digit list with
a nonzero leading digit: the reversed list itself. -/
theorem digits_ofMSB (D : List Nat) (h : ∀ d ∈ D, d < 10) (hne : D ≠ [])
    (hh : D.headD 0 ≠ 0) :
    Nat.digits 10 (D.foldl (fun a d => 10 * a + d) 0) = D.reverse := by
  induction D using List.reverseRecOn with
  | nil => exact absurd rfl hne
  | append_singleton l a ih =>
    rw [List.foldl_append]
    by_cases hl : l = []
    · subst hl
      simp only [List.foldl_nil, List.foldl_cons]
      have ha : a ≠ 0 := by simpa using hh
      have ha10 : a < 10 := h a (by simp)
      rw [Nat.digits_def' (by norm_num) (by omega)]
      rw [Nat.mod_eq_of_lt (by omega), Nat.div_eq_of_lt (by omega)]
      simp
    · have hhl : l.headD 0 ≠ 0 := by
        cases l with
        | nil => exact absurd rfl hl
        | cons x xs => simpa using hh
      have ihl := ih (fun d hd => h d (by simp [hd])) hl hhl
      have hv : l.foldl (fun a d => 10 * a + d) 0 ≠ 0 := by
        intro hv0
        rw [hv0] at ihl
        simp at ihl
        exact hl (by simpa using congrArg List.reverse ihl.symm)
      have ha10 : a < 10 := h a (by simp)
      simp only [List.foldl_cons, List.foldl_nil]
      rw [Nat.digits_def' (by norm_num) (by omega)]
      have hmod : (10 * l.foldl (fun a d => 10 * a + d) 0 + a) % 10 = a := by omega
      have hdiv : (10 * l.foldl (fun a d => 10 * a + d) 0 + a) / 10 =
          l.foldl (fun a d => 10 * a + d) 0 := by omega
      rw [hmod, hdiv, ihl, List.reverse_append]
      simp

theorem natToChars_charsToNat_stripped {C : List Char} {c0 : Char} {rest : List Char}
    (hd : ∀ c ∈ C, isDigitChar c = true)
    (hsplit : C.dropWhile (fun c => c == '0') = c0 :: rest) :
    natToChars (charsToNat C) = c0 :: rest := by
  have hC : C.takeWhile (fun c => c == '0') ++ (c0 :: rest) = C := by
    rw [← hsplit]; exact List.takeWhile_append_dropWhile _ _
  have hzs : ∀ c ∈ C.takeWhile (fun c => c == '0'), c = '0' := by
    intro c hc
    have := List.mem_takeWhile_imp hc
    simpa using this
  have hmem : ∀ c ∈ c0 :: rest, c ∈ C := by
    intro c hc
    rw [← hC]
    exact List.mem_append_right _ hc
  have hval : charsToNat C = charsToNat (c0 :: rest) := by
    rw [← hC, charsToNat_append, charsToNat_all_zero hzs]
    simp
  have hc0 : c0 ≠ '0' := by
    have := dropWhile_head_false _ C c0 rest hsplit
    simpa using this
  have hc0d : isDigitChar c0 = true := hd c0 (hmem c0 (by simp))
  have hcv : charVal c0 ≠ 0 := charVal_ne_zero hc0d hc0
  have hdig : ∀ d ∈ (c0 :: rest).map charVal, d < 10 := by
    intro d hdm
    simp only [List.mem_map] at hdm
    obtain ⟨c, hc, rfl⟩ := hdm
    exact charVal_lt_ten (hd c (hmem c hc))
  have hL1 := digits_ofMSB ((c0 :: rest).map charVal) hdig (by simp) (by simpa using hcv)
  have hvne : charsToNat (c0 :: rest) ≠ 0 := by
    intro h0
    rw [charsToNat_eq_fold_map] at h0
    rw [h0] at hL1
    simp at hL1
  rw [hval]
  unfold natToChars
  rw [if_neg hvne, decDigits_eq_digits, charsToNat_eq_fold_map, hL1, List.reverse_reverse]
  rw [← List.comp_map]
  have hcg : ∀ c ∈ c0 :: rest, (digitChar ∘ charVal) c = c := by
    intro c hc
    exact digitChar_charVal (hd c (hmem c hc))
  rw [List.map_congr_left hcg]
  simp

/-- Zero-padding the rendered value of a digit chunk of at most four characters
reconstructs the chunk, padded on the left to four characters. -/
theorem padStart4_reconstruct {C : List Char} (hd : ∀ c ∈ C, isDigitChar c = true)
    (hne : C ≠ []) (hlen : C.length ≤ 4) :
    padStart4 (natToChars (charsToNat C)) = List.replicate (4 - C.length) '0' ++ C := by
  cases hsplit : C.dropWhile (fun c => c == '0') with
  | nil =>
    have hall : ∀ c ∈ C, c = '0' := by
      intro c hc
      have := List.dropWhile_eq_nil_iff.mp hsplit c hc
      simpa using this
    calc padStart4 (natToChars (charsToNat C)) = List.replicate 4 '0' := by
          rw [charsToNat_all_zero hall]; rfl
      _ = List.replicate (4 - C.length) '0' ++ List.replicate C.length '0' := by
          rw [← List.replicate_add]; congr 1; omega
      _ = List.replicate (4 - C.length) '0' ++ C := by
          rw [← all_zero_eq_replicate hall]
  | cons c0 rest =>
    rw [natToChars_charsToNat_stripped hd hsplit]
    have hC : C.takeWhile (fun c => c == '0') ++ (c0 :: rest) = C := by
      rw [← hsplit]; exact List.takeWhile_append_dropWhile _ _
    have hzs : ∀ c ∈ C.takeWhile (fun c => c == '0'), c = '0' := by
      intro c hc
      simpa using List.mem_takeWhile_imp hc
    have hlz : (C.takeWhile (fun c => c == '0')).length + (c0 :: rest).length = C.length := by
      have := congrArg List.length hC
      simpa [List.length_append] using this
    calc padStart4 (c0 :: rest)
        = List.replicate (4 - (c0 :: rest).length) '0' ++ (c0 :: rest) := rfl
      _ = List.replicate ((4 - C.length) + (C.takeWhile (fun c => c == '0')).length) '0' ++
            (c0 :: rest) := by
          congr 2
          omega
      _ = List.replicate (4 - C.length) '0' ++
            (List.replicate (C.takeWhile (fun c => c == '0')).length '0' ++ (c0 :: rest)) := by
          rw [List.replicate_add, List.append_assoc]
      _ = List.replicate (4 - C.length) '0' ++ C := by
          rw [← all_zero_eq_replicate hzs, hC]

/-! ## BigInt codec round-trip lemmas -/

theorem natGroupsAux_eq_digits : ∀ fuel n : Nat, n ≤ fuel →
    BigIntCodec.natGroupsAux fuel n = Nat.digits 10000 n := by
  intro fuel
  induction fuel with
  | zero =>
    intro n hn
    have : n = 0 := by omega
    subst this
    simp [BigIntCodec.natGroupsAux]
  | succ f ih =>
    intro n hn
    by_cases h0 : n = 0
    · subst h0; simp [BigIntCodec.natGroupsAux]
    · rw [BigIntCodec.natGroupsAux, if_neg h0,
          Nat.digits_def' (by norm_num) (Nat.pos_of_ne_zero h0), ih (n / 10000) (by omega)]

theorem natGroups_eq_digits (n : Nat) : BigIntCodec.natGroups n = Nat.digits 10000 n :=
  natGroupsAux_eq_digits n n le_rfl

theorem foldl_range_append (f : Nat → List Char) :
    ∀ (n : Nat) (init : List Char),
      (List.range n).foldl (fun acc j => acc ++ f j) init =
        init ++ ((List.range n).map f).flatten := by
  intro n
  induction n with
  | zero => intro init; simp
  | succ m ih =>
    intro init
    rw [List.range_succ, List.foldl_append, ih, List.map_append, List.flatten_append]
    simp

theorem map_range_getD {α β : Type} (f : α → β) (d : α) :
    ∀ xs : List α, (List.range xs.length).map (fun j => f (xs.getD j d)) = xs.map f := by
  intro xs
  induction xs with
  | nil => simp
  | cons x rest ih =>
    rw [List.length_cons, List.range_succ_eq_map, List.map_cons, List.map_map, List.map_cons]
    congr 1

/-- The position loop of decodeBigIntToString on a payload whose group count is
exactly weight + 1: the first group at natural width followed by the remaining
groups zero-padded to four digits. -/
theorem bigint_body_eq (g : Nat) (gs : List Nat) :
    (List.range (g :: gs).length).foldl (fun acc j =>
        acc ++ (if j < (g :: gs).length then
          (if 0 < j then padStart4 (natToChars ((g :: gs).getD j 0))
           else natToChars ((g :: gs).getD j 0))
        else ['0', '0', '0', '0'])) [] =
      natToChars g ++ (gs.map (fun x => padStart4 (natToChars x))).flatten := by
  rw [foldl_range_append, List.nil_append, List.length_cons, List.range_succ_eq_map,
      List.map_cons, List.map_map, List.flatten_cons]
  congr 1
  · simp
  · rw [← map_range_getD (fun x => padStart4 (natToChars x)) 0 gs]
    congr 1
    apply List.map_congr_left
    intro j hj
    have hjlt : j < gs.length := List.mem_range.mp hj
    simp only [Function.comp_apply]
    rw [if_pos (by omega : j + 1 < gs.length + 1), if_pos (Nat.succ_pos j),
        List.getD_cons_succ]

theorem length_padStart4 {cs : List Char} (h : cs.length ≤ 4) : (padStart4 cs).length = 4 := by
  unfold padStart4
  rw [List.length_append, List.length_replicate]
  omega

theorem charsToNat_padStart4 (cs : List Char) : charsToNat (padStart4 cs) = charsToNat cs := by
  unfold padStart4
  rw [charsToNat_append, charsToNat_replicate_zero]
  simp

/-- Appending a zero-padded group multiplies the accumulated value by 10000 and
adds the group. -/
theorem charsToNat_append_group (X : List Char) {g : Nat} (hg : g < 10000) :
    charsToNat (X ++ padStart4 (natToChars g)) = 10000 * charsToNat X + g := by
  rw [charsToNat_append, length_padStart4 (natToChars_length_le (by norm_num) hg),
      charsToNat_padStart4, charsToNat_natToChars]
  ring

theorem charsToNat_chunks : ∀ (gs : List Nat) (X : List Char), (∀ g ∈ gs, g < 10000) →
    charsToNat (X ++ (gs.map (fun x => padStart4 (natToChars x))).flatten) =
      gs.foldl (fun a g => 10000 * a + g) (charsToNat X) := by
  intro gs
  induction gs with
  | nil => intro X h; simp
  | cons g rest ih =>
    intro X h
    rw [List.map_cons, List.flatten_cons, ← List.append_assoc,
        ih (X ++ padStart4 (natToChars g)) (fun y hy => h y (by simp [hy])),
        charsToNat_append_group X (h g (by simp)), List.foldl_cons]

theorem padStart4_all_digit (cs : List Char) (h : ∀ c ∈ cs, isDigitChar c = true) :
    ∀ c ∈ padStart4 cs, isDigitChar c = true := by
  intro c hc
  unfold padStart4 at hc
  rcases List.mem_append.mp hc with hz | hm
  · rw [List.eq_of_mem_replicate hz]; decide
  · exact h c hm

theorem jsBigIntOfString_digits (cs : List Char) (hne : cs ≠ [])
    (hd : ∀ x ∈ cs, isDigitChar x = true) :
    BigIntCodec.jsBigIntOfString cs = some ((charsToNat cs : Int)) := by
  obtain ⟨c, rest, rfl⟩ : ∃ c rest, cs = c :: rest := by
    cases cs with
    | nil => exact absurd rfl hne
    | cons c rest => exact ⟨c, rest, rfl⟩
  have hc := hd c (by simp)
  have hminus : c ≠ '-' := isDigitChar_not_dash hc
  have hplus : c ≠ '+' := isDigitChar_not_plus hc
  unfold BigIntCodec.jsBigIntOfString
  dsimp only
  rw [if_neg hminus, if_neg hplus, if_pos (List.all_eq_true.mpr hd)]

theorem jsBigIntOfString_dash (cs : List Char) (hne : cs ≠ [])
    (hd : ∀ x ∈ cs, isDigitChar x = true) :
    BigIntCodec.jsBigIntOfString ('-' :: cs) = some (-(charsToNat cs : Int)) := by
  unfold BigIntCodec.jsBigIntOfString
  dsimp only
  rw [if_pos rfl, if_pos ⟨hne, List.all_eq_true.mpr hd⟩]

theorem flatten_chunks_all_digit (gs : List Nat) :
    ∀ c ∈ (gs.map (fun x => padStart4 (natToChars x))).flatten, isDigitChar c = true := by
  intro c hc
  rw [List.mem_flatten] at hc
  obtain ⟨l, hl, hcl⟩ := hc
  rw [List.mem_map] at hl
  obtain ⟨g, _, rfl⟩ := hl
  exact padStart4_all_digit _ (natToChars_all_digit g) c hcl

set_option maxHeartbeats 1000000

/-- The big-integer codec round trip: every integer whose digit-group count
fits the u16/i16 header fields is restored exactly. -/
theorem bigIntRoundTrip (x : Int) (hx : x.natAbs < 10000 ^ 32768) :
    BigIntCodec.roundTrip x = .ok x := by
  by_cases h0 : x = 0
  · subst h0; rfl
  · have hn0 : x.natAbs ≠ 0 := by simpa using h0
    have hD : BigIntCodec.natGroups x.natAbs = Nat.digits 10000 x.natAbs :=
      natGroups_eq_digits x.natAbs
    have hDne : Nat.digits 10000 x.natAbs ≠ [] := Nat.digits_ne_nil_iff_ne_zero.mpr hn0
    have hlen : (Nat.digits 10000 x.natAbs).length ≤ 32768 :=
      digits_len_le_of_lt_pow (by norm_num) hx
    have hlen1 : 1 ≤ (Nat.digits 10000 x.natAbs).length :=
      List.length_pos_of_ne_nil hDne
    have henc : BigIntCodec.encode x =
        .ok ⟨(Nat.digits 10000 x.natAbs).length,
             (((Nat.digits 10000 x.natAbs).length - 1 : Nat) : Int),
             if x < 0 then NUMERIC_NEG else NUMERIC_POS, 0,
             (Nat.digits 10000 x.natAbs).reverse⟩ := by
      unfold BigIntCodec.encode
      rw [if_neg h0]
      dsimp only
      rw [hD, if_pos (show (Nat.digits 10000 x.natAbs).length < 65536 by omega),
          if_pos (show (Nat.digits 10000 x.natAbs).length - 1 < 32768 by omega)]
    obtain ⟨g, gs, hGrev⟩ : ∃ g gs, (Nat.digits 10000 x.natAbs).reverse = g :: gs := by
      cases hrev : (Nat.digits 10000 x.natAbs).reverse with
      | nil =>
        exact absurd (by simpa using congrArg List.reverse hrev) hDne
      | cons g gs => exact ⟨g, gs, rfl⟩
    have hglt : ∀ y ∈ g :: gs, y < 10000 := by
      intro y hy
      rw [← hGrev] at hy
      exact Nat.digits_lt_base (by norm_num) (List.mem_reverse.mp hy)
    have hcnt : ((((Nat.digits 10000 x.natAbs).length - 1 : Nat) : Int) + 1).toNat =
        (g :: gs).length := by
      have := congrArg List.length hGrev
      rw [List.length_reverse] at this
      omega
    have hbody := bigint_body_eq g gs
    have hbodyval : charsToNat (natToChars g ++
        (gs.map (fun x => padStart4 (natToChars x))).flatten) = x.natAbs := by
      rw [charsToNat_chunks gs (natToChars g) (fun y hy => hglt y (by simp [hy])),
          charsToNat_natToChars]
      have hfold : (g :: gs).foldl (fun a y => 10000 * a + y) 0 = x.natAbs := by
        rw [← hGrev, foldl_msb_eq_ofDigits 10000, Nat.ofDigits_digits]
      simpa using hfold
    have hbodydig : ∀ c ∈ natToChars g ++
        (gs.map (fun x => padStart4 (natToChars x))).flatten, isDigitChar c = true := by
      intro c hc
      rcases List.mem_append.mp hc with h | h
      · exact natToChars_all_digit g c h
      · exact flatten_chunks_all_digit gs c h
    have hbodyne : natToChars g ++
        (gs.map (fun x => padStart4 (natToChars x))).flatten ≠ [] := by
      intro hnil
      rw [List.append_eq_nil] at hnil
      exact natToChars_ne_nil g hnil.1
    unfold BigIntCodec.roundTrip
    rw [henc]
    dsimp only
    unfold BigIntCodec.decode BigIntCodec.decodeBigIntToString
    by_cases hneg : x < 0
    · rw [if_pos hneg]
      rw [if_pos (Or.inr rfl), if_neg (by decide : ¬(0 : Nat) ≠ 0),
          if_neg (by
            rw [hGrev]
            simp)]
      dsimp only
      rw [if_pos (Int.natCast_nonneg ((Nat.digits 10000 x.natAbs).length - 1))]
      rw [hcnt]
      rw [hGrev]
      rw [hbody]
      rw [if_pos rfl]
      rw [List.singleton_append, jsBigIntOfString_dash _ hbodyne hbodydig, hbodyval]
      dsimp only
      congr 1
      omega
    · rw [if_neg hneg]
      rw [if_pos (Or.inl rfl), if_neg (by decide : ¬(0 : Nat) ≠ 0),
          if_neg (by
            rw [hGrev]
            simp)]
      dsimp only
      rw [if_pos (Int.natCast_nonneg ((Nat.digits 10000 x.natAbs).length - 1)),
          hcnt, hGrev, hbody]
      rw [if_neg (by decide : ¬NUMERIC_POS = NUMERIC_NEG)]
      rw [List.nil_append, jsBigIntOfString_digits _ hbodyne hbodydig, hbodyval]
      dsimp only
      congr 1
      omega

/-! ## Decimal codec round-trip: the canonical string domain -/

/-- A canonical decimal string body: integer digits with no superfluous leading
zero, at least one fraction digit, and sizes that fit the i16 weight and u16
dscale header fields. -/
def CanonicalDec (I F : List Char) : Prop :=
  (∀ c ∈ I, isDigitChar c = true) ∧ (∀ c ∈ F, isDigitChar c = true) ∧ F ≠ [] ∧
  (I = ['0'] ∨ (I ≠ [] ∧ I.headD '0' ≠ '0')) ∧
  I.length ≤ 131072 ∧ F.length ≤ 65535

/-- The decimal string with integer part I and fraction part F, with an
optional leading minus sign. -/
def renderDec (neg : Bool) (I F : List Char) : List Char :=
  (if neg then ['-'] else []) ++ I ++ '.' :: F

/-! ## The regex captures on a canonical string -/

theorem takeWhile_append_stop {p : Char → Bool} :
    ∀ (a : List Char) (x : Char) (b : List Char), (∀ c ∈ a, p c = true) → p x = false →
      (a ++ x :: b).takeWhile p = a := by
  intro a
  induction a with
  | nil =>
    intro x b _ hx
    simp [List.takeWhile_cons, hx]
  | cons c cs ih =>
    intro x b ha hx
    rw [List.cons_append, List.takeWhile_cons, ha c (by simp)]
    rw [ih x b (fun y hy => ha y (by simp [hy])) hx]
    simp

theorem getD_append_length {a : List Char} {x : Char} (b : List Char) (d : Char) :
    (a ++ x :: b).getD a.length d = x := by
  induction a with
  | nil => rfl
  | cons c cs ih => simpa using ih

theorem drop_append_length_succ {a : List Char} {x : Char} (b : List Char) :
    (a ++ x :: b).drop (a.length + 1) = b := by
  induction a with
  | nil => rfl
  | cons c cs ih => simpa using ih

/-- On a canonical body the backtracking search finds the integer digits at
their natural position: the wildcard consumes the literal point. -/
theorem tryFracSplit_canonical (I F : List Char)
    (hI : ∀ c ∈ I, isDigitChar c = true) (hF : ∀ c ∈ F, isDigitChar c = true)
    (hIne : I ≠ []) (hFne : F ≠ []) :
    tryFracSplit (I ++ '.' :: F) 0 I.length = some (I, F) := by
  obtain ⟨l, hl⟩ : ∃ l, I.length = l + 1 := by
    cases I with
    | nil => exact absurd rfl hIne
    | cons c cs => exact ⟨cs.length, rfl⟩
  rw [hl]
  rw [tryFracSplit]
  have hp : 0 + l + 1 = I.length := by omega
  have hplt : 0 + l + 1 < (I ++ '.' :: F).length := by
    rw [List.length_append]
    simp only [List.length_cons]
    omega
  have hget : (I ++ '.' :: F).getD (0 + l + 1) ' ' = '.' := by
    rw [hp]
    exact getD_append_length F ' '
  have hdrop : (I ++ '.' :: F).drop (0 + l + 1 + 1) = F := by
    rw [hp]
    exact drop_append_length_succ F
  rw [if_pos]
  · rw [hdrop]
    congr 1
    rw [List.drop_zero, ← hl, List.take_left]
  · rw [hdrop, hget]
    simp only [Bool.and_eq_true, decide_eq_true_eq]
    refine ⟨⟨⟨hplt, by decide⟩, by simpa using hFne⟩, List.all_eq_true.mpr hF⟩

theorem tryIntStart_canonical_nz (c : Char) (cs F : List Char)
    (hI : ∀ x ∈ c :: cs, isDigitChar x = true) (hF : ∀ x ∈ F, isDigitChar x = true)
    (hFne : F ≠ []) :
    tryIntStart ((c :: cs) ++ '.' :: F) 0 = some (c :: cs, F) := by
  rw [tryIntStart]
  have hget : ((c :: cs) ++ '.' :: F).getD 0 ' ' = c := rfl
  rw [hget, if_pos (hI c (by simp))]
  rw [takeWhile_append_stop (c :: cs) '.' F hI (by decide)]
  exact tryFracSplit_canonical (c :: cs) F hI hF (by simp) hFne

theorem tryIntStart_zero (F : List Char) (hF : ∀ x ∈ F, isDigitChar x = true)
    (hFne : F ≠ []) :
    tryIntStart ('0' :: '.' :: F) 1 = some (['0'], F) := by
  rw [show (1 : Nat) = 0 + 1 from rfl, tryIntStart]
  have hget1 : (('0' :: '.' :: F) : List Char).getD (0 + 1) ' ' = '.' := rfl
  rw [hget1, if_neg (by decide : ¬isDigitChar '.' = true)]
  show tryIntStart ('0' :: '.' :: F) 0 = some (['0'], F)
  have := tryIntStart_canonical_nz '0' [] F (by intro x hx; simp at hx; subst hx; decide) hF hFne
  simpa using this

theorem decimalMatch_canonical (neg : Bool) (I F : List Char)
    (hI : ∀ c ∈ I, isDigitChar c = true) (hF : ∀ c ∈ F, isDigitChar c = true)
    (hFne : F ≠ []) (hhead : I = ['0'] ∨ (I ≠ [] ∧ I.headD '0' ≠ '0')) :
    decimalMatch (renderDec neg I F) = some ((if neg then ['-'] else []), I, F) := by
  obtain ⟨c, cs, rfl⟩ : ∃ c cs, I = c :: cs := by
    rcases hhead with h | ⟨hne, _⟩
    · exact ⟨'0', [], h⟩
    · cases I with
      | nil => exact absurd rfl hne
      | cons c cs => exact ⟨c, cs, rfl⟩
  have hcd : isDigitChar c = true := hI c (by simp)
  have hint : tryIntStart ((c :: cs) ++ '.' :: F)
      (((c :: cs) ++ '.' :: F).takeWhile (fun x => x == '0')).length = some (c :: cs, F) := by
    rcases hhead with h | ⟨_, hne0⟩
    · obtain ⟨rfl, rfl⟩ : c = '0' ∧ cs = [] := by
        have h1 := List.cons.inj h
        exact ⟨h1.1, h1.2⟩
      have hz : ((['0'] : List Char) ++ '.' :: F).takeWhile (fun x => x == '0') = ['0'] :=
        takeWhile_append_stop ['0'] '.' F (by decide) (by decide)
      rw [hz]
      simpa using tryIntStart_zero F hF hFne
    · have hcne : c ≠ '0' := by simpa using hne0
      have hz : ((c :: cs) ++ '.' :: F).takeWhile (fun x => x == '0') = [] := by
        rw [List.cons_append, List.takeWhile_cons,
            show (c == '0') = false from beq_eq_false_iff_ne.mpr hcne]
        simp
      rw [hz]
      simpa using tryIntStart_canonical_nz c cs F hI hF hFne
  cases neg with
  | true =>
    show decimalMatch ('-' :: ((c :: cs) ++ '.' :: F)) = some (['-'], c :: cs, F)
    unfold decimalMatch
    dsimp only
    rw [if_pos (Or.inr rfl)]
    dsimp only
    rw [hint]
    rfl
  | false =>
    show decimalMatch ((c :: cs) ++ '.' :: F) = some ([], c :: cs, F)
    unfold decimalMatch
    rw [List.cons_append]
    dsimp only
    rw [if_neg (by
      rintro (h | h)
      · exact isDigitChar_not_plus hcd h
      · exact isDigitChar_not_dash hcd h)]
    dsimp only
    rw [← List.cons_append, hint]
    rfl

/-! ## Structure of the encode loop's slices -/

/-- The slices of the encode loop, characterized as peeling four characters
from the right end at a time (proved equal to encChunks below). -/
def specChunks (ds : List Char) : List (List Char) :=
  if h : ds = [] then []
  else ds.drop (ds.length - 4) :: specChunks (ds.take (ds.length - 4))
termination_by ds.length
decreasing_by
  rw [List.length_take]
  have : 0 < ds.length := List.length_pos_of_ne_nil h
  omega

theorem specChunks_nil : specChunks [] = [] := by
  rw [specChunks]
  rfl

theorem specChunks_ne_nil_eq (ds : List Char) (h : ds ≠ []) :
    specChunks ds = ds.drop (ds.length - 4) :: specChunks (ds.take (ds.length - 4)) := by
  rw [specChunks]
  exact dif_neg h

theorem specChunks_eq_nil_iff (ds : List Char) : specChunks ds = [] ↔ ds = [] := by
  constructor
  · intro h
    by_contra hne
    rw [specChunks_ne_nil_eq ds hne] at h
    exact List.cons_ne_nil _ _ h
  · intro h
    subst h
    exact specChunks_nil

theorem chunkAt_shift (ds : List Char) (i : Nat) :
    chunkAt ds (i + 4) = chunkAt (ds.take (ds.length - 4)) i := by
  unfold chunkAt
  rw [List.length_take, List.take_take]
  have h1 : min (ds.length - 4) ds.length = ds.length - 4 := by omega
  rw [h1]
  have h2 : min (ds.length - 4 - i) (ds.length - 4) = ds.length - (i + 4) := by omega
  rw [h2]
  congr 1
  omega

theorem encChunksAux_fuel (ds : List Char) :
    ∀ f1 f2 i : Nat, ds.length ≤ i + 4 * f1 → ds.length ≤ i + 4 * f2 →
      encChunksAux ds f1 i = encChunksAux ds f2 i := by
  intro f1
  induction f1 with
  | zero =>
    intro f2 i h1 h2
    have hni : ¬i < ds.length := by omega
    cases f2 with
    | zero => rfl
    | succ f2 => rw [encChunksAux, encChunksAux, if_neg hni]
  | succ f1 ih =>
    intro f2 i h1 h2
    by_cases hi : i < ds.length
    · cases f2 with
      | zero => omega
      | succ f2 =>
        rw [encChunksAux, encChunksAux, if_pos hi, if_pos hi,
            ih f2 (i + 4) (by omega) (by omega)]
    · cases f2 with
      | zero => rw [encChunksAux, encChunksAux, if_neg hi]
      | succ f2 => rw [encChunksAux, encChunksAux, if_neg hi, if_neg hi]

theorem encChunksAux_shift (ds : List Char) :
    ∀ (fuel i : Nat),
      encChunksAux ds fuel (i + 4) = encChunksAux (ds.take (ds.length - 4)) fuel i := by
  intro fuel
  induction fuel with
  | zero => intro i; rfl
  | succ f ih =>
    intro i
    rw [encChunksAux, encChunksAux]
    have hguard : (i + 4 < ds.length) = (i < (ds.take (ds.length - 4)).length) := by
      rw [List.length_take]
      apply propext
      constructor <;> (intro h; omega)
    by_cases hi : i + 4 < ds.length
    · rw [if_pos hi, if_pos (by rw [← hguard]; exact hi), chunkAt_shift, ih]
    · rw [if_neg hi, if_neg (by rw [← hguard]; exact hi)]

theorem encChunks_step (ds : List Char) (hne : ds ≠ []) :
    encChunks ds = ds.drop (ds.length - 4) :: encChunks (ds.take (ds.length - 4)) := by
  have hpos : 0 < ds.length := List.length_pos_of_ne_nil hne
  obtain ⟨L0, hL0⟩ : ∃ L0, ds.length = L0 + 1 := ⟨ds.length - 1, by omega⟩
  show encChunksAux ds ds.length 0 = _
  conv_lhs => rw [hL0]
  rw [encChunksAux, if_pos hpos]
  congr 1
  · simp [chunkAt]
  · show encChunksAux ds L0 (0 + 4) = _
    rw [encChunksAux_shift ds L0 0]
    apply encChunksAux_fuel
    · rw [List.length_take]
      omega
    · rw [List.length_take]
      omega

theorem encChunks_eq_specChunks (ds : List Char) : encChunks ds = specChunks ds := by
  generalize hl : ds.length = L
  induction L using Nat.strong_induction_on generalizing ds with
  | _ L ih =>
    by_cases hne : ds = []
    · subst hne
      rw [specChunks_nil]
      rfl
    · have hpos : 0 < ds.length := List.length_pos_of_ne_nil hne
      subst hl
      rw [specChunks_ne_nil_eq ds hne, encChunks_step ds hne]
      congr 1
      exact ih (ds.take (ds.length - 4)).length
        (by rw [List.length_take]; omega) _ rfl

theorem drop_split (ds : List Char) (a b : Nat) (hba : b <= a) (hal : a <= ds.length) :
    ds.drop b = (ds.take a).drop b ++ ds.drop a := by
  conv_lhs => rw [<- List.take_append_drop a ds]
  rw [List.drop_append_of_le_length (by rw [List.length_take]; omega)]

theorem specChunks_flatten_take (ds : List Char) :
    ∀ k, (((specChunks ds).take k).reverse).flatten = ds.drop (ds.length - 4 * k) := by
  generalize hl : ds.length = L
  induction L using Nat.strong_induction_on generalizing ds with
  | _ L ih =>
    intro k
    by_cases hne : ds = []
    · subst hne
      simp [specChunks_nil]
    · subst hl
      have hpos : 0 < ds.length := List.length_pos_of_ne_nil hne
      rw [specChunks_ne_nil_eq ds hne]
      cases k with
      | zero =>
        simp [List.drop_length]
      | succ k =>
        rw [List.take_succ_cons, List.reverse_cons, List.flatten_append,
            ih (ds.take (ds.length - 4)).length (by rw [List.length_take]; omega) _ rfl k,
            List.length_take]
        have hmin : min (ds.length - 4) ds.length = ds.length - 4 := by omega
        rw [hmin]
        simp only [List.flatten_cons, List.flatten_nil, List.append_nil]
        rw [drop_split ds (ds.length - 4) (ds.length - 4 * (k + 1)) (by omega) (by omega),
            show ds.length - 4 - 4 * k = ds.length - 4 * (k + 1) from by omega]

theorem specChunks_length (ds : List Char) : (specChunks ds).length = (ds.length + 3) / 4 := by
  generalize hl : ds.length = L
  induction L using Nat.strong_induction_on generalizing ds with
  | _ L ih =>
    by_cases hne : ds = []
    · subst hne
      subst hl
      simp [specChunks_nil]
    · subst hl
      have hpos : 0 < ds.length := List.length_pos_of_ne_nil hne
      rw [specChunks_ne_nil_eq ds hne, List.length_cons,
          ih (ds.take (ds.length - 4)).length (by rw [List.length_take]; omega) _ rfl,
          List.length_take]
      omega

theorem specChunks_flatten (ds : List Char) : ((specChunks ds).reverse).flatten = ds := by
  have h := specChunks_flatten_take ds (specChunks ds).length
  rw [List.take_length] at h
  rw [h]
  have h2 : ds.length - 4 * (specChunks ds).length = 0 := by
    rw [specChunks_length]
    omega
  rw [h2, List.drop_zero]

theorem specChunks_mem (ds : List Char) :
    ∀ C ∈ specChunks ds, C ≠ [] ∧ C.length ≤ 4 ∧ ∀ c ∈ C, c ∈ ds := by
  generalize hl : ds.length = L
  induction L using Nat.strong_induction_on generalizing ds with
  | _ L ih =>
    intro C hC
    by_cases hne : ds = []
    · subst hne
      rw [specChunks_nil] at hC
      exact absurd hC (List.not_mem_nil C)
    · subst hl
      have hpos : 0 < ds.length := List.length_pos_of_ne_nil hne
      rw [specChunks_ne_nil_eq ds hne] at hC
      rcases List.mem_cons.mp hC with rfl | hC
      · refine ⟨?_, ?_, ?_⟩
        · intro h
          have := congrArg List.length h
          rw [List.length_drop] at this
          simp at this
          omega
        · rw [List.length_drop]
          omega
        · intro c hc
          exact List.mem_of_mem_drop hc
      · obtain ⟨h1, h2, h3⟩ := ih (ds.take (ds.length - 4)).length
          (by rw [List.length_take]; omega) _ rfl C hC
        exact ⟨h1, h2, fun c hc => List.mem_of_mem_take (h3 c hc)⟩

theorem specChunks_append_aux : ∀ (L : Nat) (P : List Char), P.length = L →
    P.length % 4 = 0 →
    ∀ a : List Char, specChunks (a ++ P) = specChunks P ++ specChunks a := by
  intro L
  induction L using Nat.strong_induction_on with
  | _ L ih =>
    intro P hl hP a
    subst hl
    by_cases hne : P = []
    · subst hne
      simp [specChunks_nil]
    · have hpos : 0 < P.length := List.length_pos_of_ne_nil hne
      have hP4 : 4 ≤ P.length := by omega
      have haP : a ++ P ≠ [] := fun h => hne (List.append_eq_nil.mp h).2
      rw [specChunks_ne_nil_eq (a ++ P) haP]
      have hsplitlen : (a ++ P).length - 4 = a.length + (P.length - 4) := by
        rw [List.length_append]
        omega
      rw [hsplitlen, List.drop_append, List.take_append]
      rw [ih (P.length - 4) (by omega) (P.take (P.length - 4))
            (by rw [List.length_take]; omega) (by rw [List.length_take]; omega) a]
      rw [specChunks_ne_nil_eq P hne]
      rfl

theorem specChunks_append (P : List Char) (hP : P.length % 4 = 0) (a : List Char) :
    specChunks (a ++ P) = specChunks P ++ specChunks a :=
  specChunks_append_aux P.length P rfl hP a

theorem specChunks_drop (ds : List Char) :
    ∀ j, (specChunks ds).drop j = specChunks (ds.take (ds.length - 4 * j)) := by
  generalize hl : ds.length = L
  induction L using Nat.strong_induction_on generalizing ds with
  | _ L ih =>
    intro j
    by_cases hne : ds = []
    · subst hne
      simp [specChunks_nil]
    · subst hl
      have hpos : 0 < ds.length := List.length_pos_of_ne_nil hne
      cases j with
      | zero =>
        rw [Nat.mul_zero, Nat.sub_zero, List.take_length, List.drop_zero]
      | succ j =>
        rw [specChunks_ne_nil_eq ds hne, List.drop_succ_cons,
            ih (ds.take (ds.length - 4)).length (by rw [List.length_take]; omega) _ rfl j,
            List.take_take, List.length_take,
            show min (min (ds.length - 4) ds.length - 4 * j) (ds.length - 4) =
              ds.length - 4 * (j + 1) from by omega]

theorem specChunks_dropLast_len4 (ds : List Char) :
    ∀ C ∈ (specChunks ds).dropLast, C.length = 4 := by
  generalize hl : ds.length = L
  induction L using Nat.strong_induction_on generalizing ds with
  | _ L ih =>
    intro C hC
    by_cases hne : ds = []
    · subst hne
      rw [specChunks_nil] at hC
      exact absurd hC (List.not_mem_nil C)
    · subst hl
      have hpos : 0 < ds.length := List.length_pos_of_ne_nil hne
      rw [specChunks_ne_nil_eq ds hne] at hC
      by_cases hrest : specChunks (ds.take (ds.length - 4)) = []
      · rw [hrest] at hC
        simp at hC
      · rw [List.dropLast_cons_of_ne_nil hrest] at hC
        have hds' : ds.take (ds.length - 4) ≠ [] := by
          intro h
          exact hrest (by rw [h, specChunks_nil])
        have hlen5 : 5 ≤ ds.length := by
          have := List.length_pos_of_ne_nil hds'
          rw [List.length_take] at this
          omega
        rcases List.mem_cons.mp hC with rfl | hC
        · rw [List.length_drop]
          omega
        · exact ih (ds.take (ds.length - 4)).length (by rw [List.length_take]; omega) _ rfl C hC

theorem specChunks_getLast (ds : List Char) (hne : ds ≠ []) :
    ∃ k, 0 < k ∧ k ≤ ds.length ∧ (specChunks ds).getLast? = some (ds.take k) := by
  generalize hl : ds.length = L
  induction L using Nat.strong_induction_on generalizing ds with
  | _ L ih =>
    subst hl
    have hpos : 0 < ds.length := List.length_pos_of_ne_nil hne
    rw [specChunks_ne_nil_eq ds hne]
    by_cases hlow : ds.length ≤ 4
    · have htake0 : ds.take (ds.length - 4) = [] := by
        rw [show ds.length - 4 = 0 by omega]
        rfl
      rw [htake0, specChunks_nil]
      refine ⟨ds.length, hpos, le_rfl, ?_⟩
      rw [show ds.length - 4 = 0 by omega, List.drop_zero, List.take_length]
      rfl
    · have hds' : ds.take (ds.length - 4) ≠ [] := by
        intro h
        have := congrArg List.length h
        rw [List.length_take] at this
        simp at this
        omega
      obtain ⟨k, hk0, hkle, hklast⟩ := ih (ds.take (ds.length - 4)).length
        (by rw [List.length_take]; omega) _ hds' rfl
      refine ⟨k, hk0, ?_, ?_⟩
      · rw [List.length_take] at hkle
        omega
      · have hrestne : specChunks (ds.take (ds.length - 4)) ≠ [] := by
          intro h
          exact hds' ((specChunks_eq_nil_iff _).mp h)
        obtain ⟨r, rs, hr⟩ : ∃ r rs, specChunks (ds.take (ds.length - 4)) = r :: rs := by
          cases hsp : specChunks (ds.take (ds.length - 4)) with
          | nil => exact absurd hsp hrestne
          | cons r rs => exact ⟨r, rs, rfl⟩
        rw [hr, List.getLast?_cons_cons, ← hr, hklast, List.take_take]
        congr 2
        rw [List.length_take] at hkle
        omega

/-- Rendering every slice zero-padded to four digits, most significant first,
reconstructs the digit string up to left zero-padding of its leading slice. -/
theorem specChunks_render (ds : List Char) (hd : ∀ c ∈ ds, isDigitChar c = true)
    (hne : ds ≠ []) :
    ((specChunks ds).reverse.map (fun C => padStart4 (natToChars (charsToNat C)))).flatten =
      List.replicate ((4 - ds.length % 4) % 4) '0' ++ ds := by
  generalize hl : ds.length = L
  induction L using Nat.strong_induction_on generalizing ds with
  | _ L ih =>
    subst hl
    have hpos : 0 < ds.length := List.length_pos_of_ne_nil hne
    by_cases hlow : ds.length ≤ 4
    · have hspec : specChunks ds = [ds] := by
        rw [specChunks_ne_nil_eq ds hne, show ds.length - 4 = 0 by omega, List.drop_zero,
            List.take_zero, specChunks_nil]
      rw [hspec]
      simp only [List.reverse_cons, List.reverse_nil, List.nil_append, List.map_cons,
        List.map_nil, List.flatten_cons, List.flatten_nil, List.append_nil]
      rw [padStart4_reconstruct hd hne hlow]
      congr 2
      omega
    · rw [specChunks_ne_nil_eq ds hne]
      have hds' : ds.take (ds.length - 4) ≠ [] := by
        intro h
        have := congrArg List.length h
        rw [List.length_take] at this
        simp at this
        omega
      have hd' : ∀ c ∈ ds.take (ds.length - 4), isDigitChar c = true :=
        fun c hc => hd c (List.mem_of_mem_take hc)
      have hsuffd : ∀ c ∈ ds.drop (ds.length - 4), isDigitChar c = true :=
        fun c hc => hd c (List.mem_of_mem_drop hc)
      have hsuffne : ds.drop (ds.length - 4) ≠ [] := by
        intro h
        have := congrArg List.length h
        rw [List.length_drop] at this
        simp at this
        omega
      have hsufflen : (ds.drop (ds.length - 4)).length = 4 := by
        rw [List.length_drop]
        omega
      rw [List.reverse_cons, List.map_append, List.flatten_append,
          ih (ds.take (ds.length - 4)).length (by rw [List.length_take]; omega) _ hd' hds' rfl]
      simp only [List.map_cons, List.map_nil, List.flatten_cons, List.flatten_nil,
        List.append_nil]
      rw [padStart4_reconstruct hsuffd hsuffne (by omega), hsufflen]
      simp only [Nat.sub_self, List.replicate_zero, List.nil_append]
      rw [List.length_take, List.append_assoc, List.take_append_drop]
      congr 2
      omega

/-! ## The digit-group accumulation loop -/

/-- The digit groups with their trailing zero groups removed. -/
def dtz (xs : List Nat) : List Nat := (xs.reverse.dropWhile (fun v => v == 0)).reverse

theorem dtz_nil : dtz [] = [] := rfl

theorem dtz_append_singleton (xs : List Nat) (y : Nat) :
    dtz (xs ++ [y]) = if y = 0 then dtz xs else xs ++ [y] := by
  unfold dtz
  rw [List.reverse_append, List.reverse_cons, List.reverse_nil, List.nil_append,
      List.singleton_append, List.dropWhile_cons]
  by_cases hy : y = 0
  · rw [if_pos (by simpa using hy), if_pos hy]
  · rw [if_neg (by simpa using hy), if_neg hy, List.reverse_cons, List.reverse_reverse]

theorem dropWhile_eq_drop_len {α : Type} (p : α → Bool) :
    ∀ xs : List α, xs.dropWhile p = xs.drop (xs.takeWhile p).length := by
  intro xs
  induction xs with
  | nil => rfl
  | cons x tl ih =>
    rw [List.dropWhile_cons, List.takeWhile_cons]
    by_cases hx : p x = true
    · rw [if_pos hx, if_pos hx, List.length_cons, List.drop_succ_cons, ih]
    · rw [if_neg hx, if_neg (by simpa using hx), List.length_nil, List.drop_zero]

theorem takeWhile_eq_take_len {α : Type} (p : α → Bool) :
    ∀ xs : List α, xs.takeWhile p = xs.take (xs.takeWhile p).length := by
  intro xs
  induction xs with
  | nil => rfl
  | cons x tl ih =>
    rw [List.takeWhile_cons]
    by_cases hx : p x = true
    · rw [if_pos hx, List.length_cons, List.take_succ_cons, ← ih]
    · rw [if_neg hx, List.length_nil, List.take_zero]

theorem dtz_decomp (xs : List Nat) : ∃ t, xs = dtz xs ++ t ∧ ∀ v ∈ t, v = 0 := by
  refine ⟨(xs.reverse.takeWhile (fun v => v == 0)).reverse, ?_, ?_⟩
  · unfold dtz
    rw [← List.reverse_append, List.takeWhile_append_dropWhile, List.reverse_reverse]
  · intro v hv
    rw [List.mem_reverse] at hv
    simpa using List.mem_takeWhile_imp hv

theorem dtz_length_le (xs : List Nat) : (dtz xs).length ≤ xs.length := by
  obtain ⟨t, ht, _⟩ := dtz_decomp xs
  have := congrArg List.length ht
  rw [List.length_append] at this
  omega

theorem dtz_eq_self_of_getLast (xs : List Nat) (v : Nat) (hv : xs.getLast? = some v)
    (hvne : v ≠ 0) : dtz xs = xs := by
  unfold dtz
  rw [← List.head?_reverse] at hv
  obtain ⟨tl, htl⟩ : ∃ tl, xs.reverse = v :: tl := by
    cases hrev : xs.reverse with
    | nil => rw [hrev] at hv; simp at hv
    | cons a tl =>
      rw [hrev] at hv
      simp only [List.head?_cons, Option.some.injEq] at hv
      exact ⟨tl, by rw [hv]⟩
  rw [htl, List.dropWhile_cons, if_neg (by simpa using hvne), ← htl, List.reverse_reverse]

theorem dtz_lt_of_getLast_zero (xs : List Nat) (hv : xs.getLast? = some 0) :
    (dtz xs).length < xs.length := by
  unfold dtz
  rw [← List.head?_reverse] at hv
  obtain ⟨tl, htl⟩ : ∃ tl, xs.reverse = 0 :: tl := by
    cases hrev : xs.reverse with
    | nil => rw [hrev] at hv; simp at hv
    | cons a tl =>
      rw [hrev] at hv
      simp only [List.head?_cons, Option.some.injEq] at hv
      exact ⟨tl, by rw [hv]⟩
  have hxl : xs.length = tl.length + 1 := by
    have := congrArg List.length htl
    rw [List.length_reverse] at this
    simpa using this
  rw [htl, List.dropWhile_cons, if_pos (by simp), List.length_reverse]
  have hle : (List.dropWhile (fun v => v == 0) tl).length ≤ tl.length := by
    rw [dropWhile_eq_drop_len, List.length_drop]
    omega
  omega

theorem dtz_ne_nil_of_head (x : Nat) (tl : List Nat) (hx : x ≠ 0) :
    dtz (x :: tl) ≠ [] := by
  intro h
  obtain ⟨t, ht, hz⟩ := dtz_decomp (x :: tl)
  rw [h, List.nil_append] at ht
  exact hx (hz x (by rw [← ht]; simp))

/-- The accumulation loop skips leading zero groups entirely. -/
theorem buildStep_skip_zeros (vs : List Nat) :
    vs.foldl buildStep ([], 0) = (vs.dropWhile (fun v => v == 0)).foldl buildStep ([], 0) := by
  induction vs with
  | nil => rfl
  | cons v tl ih =>
    rw [List.dropWhile_cons]
    by_cases hv : v = 0
    · rw [if_pos (by simpa using hv), List.foldl_cons,
          show buildStep ([], 0) v = ([], 0) by
            unfold buildStep
            rw [if_neg]
            simp [hv]]
      exact ih
    · rw [if_neg (by simpa using hv)]

/-- Once a nonzero group has been pushed, the loop pushes every further group
and lastNonZero tracks the length with trailing zero groups removed. -/
theorem buildStep_run (rest : List Nat) : ∀ (d : List Nat),
    d ≠ [] → d.headD 0 ≠ 0 →
    rest.foldl buildStep (d, (dtz d).length) = (d ++ rest, (dtz (d ++ rest)).length) := by
  induction rest with
  | nil =>
    intro d hne hhd
    simp
  | cons n tl ih =>
    intro d hne hhd
    rw [List.foldl_cons]
    have hstep : buildStep (d, (dtz d).length) n =
        (d ++ [n], (dtz (d ++ [n])).length) := by
      unfold buildStep
      rw [if_pos (Or.inr (by simpa using hhd))]
      dsimp only
      rw [dtz_append_singleton]
      by_cases hn : n = 0
      · rw [if_neg (by simpa using hn), if_pos hn]
      · rw [if_pos (by simpa using hn), if_neg hn, List.length_append]
        rfl
    rw [hstep, ih (d ++ [n]) (by simp) (by
      cases d with
      | nil => exact absurd rfl hne
      | cons a l => simpa using hhd), List.append_assoc]
    rfl

/-- Full characterization of the encode loop's fold: the pushed groups are the
input with its leading zero groups removed, and lastNonZero is their count with
trailing zero groups removed. -/
theorem buildStep_spec (vs : List Nat) :
    vs.foldl buildStep ([], 0) =
      (vs.dropWhile (fun v => v == 0), (dtz (vs.dropWhile (fun v => v == 0))).length) := by
  rw [buildStep_skip_zeros]
  cases hws : vs.dropWhile (fun v => v == 0) with
  | nil => rfl
  | cons w tl =>
    have hw : w ≠ 0 := by
      have := dropWhile_head_false _ vs w tl hws
      simpa using this
    rw [List.foldl_cons]
    have hstep : buildStep ([], 0) w = ([w], (dtz [w]).length) := by
      unfold buildStep
      rw [if_pos (Or.inl (by simpa using hw))]
      dsimp only
      rw [if_pos (by simpa using hw)]
      rw [show dtz [w] = [w] from by
        unfold dtz
        simp [List.dropWhile_cons, hw]]
      simp
    rw [hstep, buildStep_run tl [w] (by simp) (by simpa using hw)]
    rfl

/-! ## Zero chunks and chunk segments -/

theorem charsToNat_cons_ne_zero {c : Char} (r : List Char)
    (hd : isDigitChar c = true) (hc : c ≠ '0') : charsToNat (c :: r) ≠ 0 := by
  rw [charsToNat_cons]
  have hv : charVal c ≠ 0 := charVal_ne_zero hd hc
  have hp : 0 < 10 ^ r.length := Nat.pow_pos (by omega)
  have := Nat.mul_pos (Nat.pos_of_ne_zero hv) hp
  omega

theorem all_zero_of_charsToNat_zero :
    ∀ (C : List Char), (∀ c ∈ C, isDigitChar c = true) → charsToNat C = 0 →
      ∀ c ∈ C, c = '0' := by
  intro C
  induction C with
  | nil =>
    intro _ _ c hc
    exact absurd hc (List.not_mem_nil c)
  | cons a tl ih =>
    intro hd h c hc
    rw [charsToNat_cons] at h
    have hp : 0 < 10 ^ tl.length := Nat.pow_pos (by omega)
    have ha : charVal a = 0 ∧ charsToNat tl = 0 := by
      constructor
      · by_contra hv
        have := Nat.mul_pos (Nat.pos_of_ne_zero hv) hp
        omega
      · omega
    rcases List.mem_cons.mp hc with rfl | hc
    · have hda := hd c (by simp)
      have hb : 48 ≤ c.toNat ∧ c.toNat ≤ 57 := by
        simpa [isDigitChar, Bool.and_eq_true, decide_eq_true_eq] using hda
      apply char_eq_of_toNat
      rw [show ('0').toNat = 48 from rfl]
      have hv : c.toNat - 48 = 0 := ha.1
      omega
    · exact ih (fun x hx => hd x (by simp [hx])) ha.2 c hc

theorem getLast_drop_eq {α : Type} : ∀ (l : List α) (n : Nat), n < l.length →
    (l.drop n).getLast? = l.getLast? := by
  intro l
  induction l with
  | nil =>
    intro n h
    simp at h
  | cons a tl ih =>
    intro n h
    cases n with
    | zero => rfl
    | succ n =>
      have hn : n < tl.length := by
        rw [List.length_cons] at h
        omega
      rw [List.drop_succ_cons, ih n hn]
      cases tl with
      | nil => simp at hn
      | cons b tl2 => rw [List.getLast?_cons_cons]

theorem dropWhile_replicate_append (p : Char → Bool) (a : Char) (hp : p a = true)
    (l : List Char) : ∀ k, (List.replicate k a ++ l).dropWhile p = l.dropWhile p := by
  intro k
  induction k with
  | zero => rfl
  | succ k ih =>
    rw [List.replicate_succ, List.cons_append, List.dropWhile_cons, if_pos hp]
    exact ih

theorem mem_dropLast_of_take {α : Type} (l : List α) (z : Nat) (hz : z + 1 ≤ l.length) :
    ∀ C ∈ l.take z, C ∈ l.dropLast := by
  intro C hC
  have he : l.take z = l.dropLast.take z := by
    rw [List.dropLast_eq_take, List.take_take,
        show min z (l.length - 1) = z from by omega]
  rw [he] at hC
  exact List.mem_of_mem_take hC

theorem chunks_zero_drop (ds : List Char) (hd : ∀ c ∈ ds, isDigitChar c = true) (z : Nat)
    (hz : z + 1 ≤ (specChunks ds).length)
    (h0 : ∀ C ∈ (specChunks ds).take z, charsToNat C = 0) :
    ds.drop (ds.length - 4 * z) = List.replicate (4 * z) '0' := by
  have hlen4 : ∀ C ∈ (specChunks ds).take z, C.length = 4 := by
    intro C hC
    exact specChunks_dropLast_len4 ds C (mem_dropLast_of_take _ z hz C hC)
  have hzero : ∀ C ∈ (specChunks ds).take z, ∀ c ∈ C, c = '0' := by
    intro C hC
    exact all_zero_of_charsToNat_zero C
      (fun c hc => hd c ((specChunks_mem ds C (List.mem_of_mem_take hC)).2.2 c hc)) (h0 C hC)
  rw [← specChunks_flatten_take ds z]
  have hall : ∀ c ∈ (((specChunks ds).take z).reverse).flatten, c = '0' := by
    intro c hc
    obtain ⟨C, hCmem, hcC⟩ := List.mem_flatten.mp hc
    exact hzero C (List.mem_reverse.mp hCmem) c hcC
  have hflen : ((((specChunks ds).take z).reverse).flatten).length = 4 * z := by
    rw [List.length_flatten, List.map_reverse, List.sum_reverse]
    have hrep : ((specChunks ds).take z).map List.length = List.replicate z 4 := by
      rw [List.eq_replicate_iff]
      constructor
      · rw [List.length_map, List.length_take]
        omega
      · intro b hb
        obtain ⟨C, hC, rfl⟩ := List.mem_map.mp hb
        exact hlen4 C hC
    rw [hrep, List.sum_replicate, smul_eq_mul]
    omega
  rw [all_zero_eq_replicate hall, hflen]

theorem render_drop_full (ds : List Char) (hd : ∀ c ∈ ds, isDigitChar c = true) (z : Nat)
    (hz4 : 4 * z < ds.length) :
    (((specChunks ds).drop z).reverse.map
        (fun C => padStart4 (natToChars (charsToNat C)))).flatten =
      List.replicate ((4 - (ds.length - 4 * z) % 4) % 4) '0' ++
        ds.take (ds.length - 4 * z) := by
  rw [specChunks_drop]
  have hlen : (ds.take (ds.length - 4 * z)).length = ds.length - 4 * z := by
    rw [List.length_take]
    omega
  rw [specChunks_render (ds.take (ds.length - 4 * z))
      (fun c hc => hd c (List.mem_of_mem_take hc))
      (by
        intro h
        have := congrArg List.length h
        rw [hlen] at this
        simp at this
        omega),
      hlen]

theorem render_take_partial (ds : List Char) (hd : ∀ c ∈ ds, isDigitChar c = true)
    (z lnz : Nat) (hzl : z + lnz + 1 ≤ (specChunks ds).length) :
    ((((specChunks ds).drop z).take lnz).reverse.map
        (fun C => padStart4 (natToChars (charsToNat C)))).flatten =
      (ds.take (ds.length - 4 * z)).drop (ds.length - 4 * z - 4 * lnz) := by
  have hmem : ∀ C ∈ ((specChunks ds).drop z).take lnz, C.length = 4 ∧
      (∀ c ∈ C, isDigitChar c = true) := by
    intro C hC
    have hshape : ((specChunks ds).drop z).take lnz =
        ((specChunks ds).take (z + lnz)).drop z := by
      rw [List.drop_take, show z + lnz - z = lnz from by omega]
    rw [hshape] at hC
    have hC2 : C ∈ (specChunks ds).take (z + lnz) := List.mem_of_mem_drop hC
    have hC3 : C ∈ (specChunks ds).dropLast :=
      mem_dropLast_of_take _ (z + lnz) (by omega) C hC2
    refine ⟨specChunks_dropLast_len4 ds C hC3, fun c hc => hd c ?_⟩
    exact (specChunks_mem ds C (List.mem_of_mem_take hC2)).2.2 c hc
  have hmap2 : (((specChunks ds).drop z).take lnz).reverse.map
      (fun C => padStart4 (natToChars (charsToNat C))) =
      (((specChunks ds).drop z).take lnz).reverse := by
    conv_rhs => rw [← List.map_id ((((specChunks ds).drop z).take lnz).reverse)]
    apply List.map_congr_left
    intro C hC
    obtain ⟨h4, hdig⟩ := hmem C (List.mem_reverse.mp hC)
    have hne : C ≠ [] := by
      intro h
      rw [h] at h4
      simp at h4
    rw [padStart4_reconstruct hdig hne (by omega), h4, Nat.sub_self, List.replicate_zero,
        List.nil_append]
    rfl
  rw [hmap2, specChunks_drop, specChunks_flatten_take, List.length_take,
      show min (ds.length - 4 * z) ds.length = ds.length - 4 * z from by omega]

/-! ## The encoded digit string and its groups -/

/-- The fraction digits padded on the right with zeros to a multiple of four
characters, as built by DecimalCodec.encode. -/
def padTo4 (F : List Char) : List Char :=
  F ++ List.replicate (((F.length + 3) / 4) * 4 - F.length) '0'

/-- The digit string int ++ padded frac built by DecimalCodec.encode. -/
def encDigitStr (I F : List Char) : List Char := I ++ padTo4 F

/-- The digit groups pushed by the encode loop when no trailing zero-group
strip happens (least significant first): the group values of the digit string
with the leading zero groups skipped. -/
def encGroups (I F : List Char) : List Nat :=
  ((specChunks (encDigitStr I F)).map charsToNat).dropWhile (fun v => v == 0)

theorem ite_ne_self {α : Type} (n : Nat) (a b : α) : (if n ≠ n then a else b) = b :=
  if_neg (fun h => h rfl)

theorem specChunks_single (c : Char) : specChunks [c] = [[c]] := by
  rw [specChunks_ne_nil_eq [c] (by simp)]
  norm_num [specChunks_nil]

/-- On a digit string with a nonzero leading digit, the encode loop ends with
lastNonZero equal to the pushed-group count (the most significant group is
nonzero, so no trailing zero groups are recorded), and at least one group is
pushed. -/
theorem encode_fold_nzhead (ds : List Char)
    (hd : ∀ c ∈ ds, isDigitChar c = true) (hne : ds ≠ [])
    (hc0 : ds.headD '0' ≠ '0') :
    (((specChunks ds).map charsToNat).foldl buildStep ([], 0) =
      (((specChunks ds).map charsToNat).dropWhile (fun v => v == 0),
       (((specChunks ds).map charsToNat).dropWhile (fun v => v == 0)).length)) ∧
    (((specChunks ds).map charsToNat).takeWhile (fun v => v == 0)).length + 1 ≤
      ((specChunks ds).map charsToNat).length := by
  obtain ⟨c0, dtl, rfl⟩ : ∃ c0 dtl, ds = c0 :: dtl := by
    cases ds with
    | nil => exact absurd rfl hne
    | cons a l => exact ⟨a, l, rfl⟩
  have hc0' : c0 ≠ '0' := by simpa using hc0
  obtain ⟨k, hk0, hkle, hgl⟩ := specChunks_getLast (c0 :: dtl) hne
  have htake : (c0 :: dtl).take k = c0 :: dtl.take (k - 1) := by
    obtain ⟨k', rfl⟩ : ∃ k', k = k' + 1 := ⟨k - 1, by omega⟩
    rw [List.take_succ_cons]
    simp
  have hvne : charsToNat ((c0 :: dtl).take k) ≠ 0 := by
    rw [htake]
    exact charsToNat_cons_ne_zero _ (hd c0 (by simp)) hc0'
  have hvl : ((specChunks (c0 :: dtl)).map charsToNat).getLast? =
      some (charsToNat ((c0 :: dtl).take k)) := by
    rw [List.getLast?_map, hgl]
    rfl
  have hlen_tw : (((specChunks (c0 :: dtl)).map charsToNat).takeWhile
      (fun v => v == 0)).length ≤ ((specChunks (c0 :: dtl)).map charsToNat).length := by
    have h1 := congrArg List.length
      (takeWhile_eq_take_len (fun v => v == 0) ((specChunks (c0 :: dtl)).map charsToNat))
    rw [List.length_take] at h1
    omega
  have hzlt : (((specChunks (c0 :: dtl)).map charsToNat).takeWhile
      (fun v => v == 0)).length + 1 ≤ ((specChunks (c0 :: dtl)).map charsToNat).length := by
    rcases Nat.lt_or_ge (((specChunks (c0 :: dtl)).map charsToNat).takeWhile
      (fun v => v == 0)).length ((specChunks (c0 :: dtl)).map charsToNat).length with h | h
    · omega
    · exfalso
      have heq : (((specChunks (c0 :: dtl)).map charsToNat).takeWhile
          (fun v => v == 0)).length = ((specChunks (c0 :: dtl)).map charsToNat).length := by
        omega
      have hall : ((specChunks (c0 :: dtl)).map charsToNat).takeWhile (fun v => v == 0) =
          (specChunks (c0 :: dtl)).map charsToNat := by
        rw [takeWhile_eq_take_len, heq, List.take_length]
      have hmem : charsToNat ((c0 :: dtl).take k) ∈
          (specChunks (c0 :: dtl)).map charsToNat :=
        List.mem_of_mem_getLast? hvl
      have := List.mem_takeWhile_imp (l := (specChunks (c0 :: dtl)).map charsToNat)
        (p := fun v => v == 0) (by rw [hall]; exact hmem)
      exact hvne (by simpa using this)
  refine ⟨?_, hzlt⟩
  rw [buildStep_spec]
  have hlast_ws : (((specChunks (c0 :: dtl)).map charsToNat).dropWhile
      (fun v => v == 0)).getLast? = some (charsToNat ((c0 :: dtl).take k)) := by
    rw [dropWhile_eq_drop_len, getLast_drop_eq _ _ (by omega), hvl]
  rw [dtz_eq_self_of_getLast _ _ hlast_ws hvne]

/-- When every group value is zero, the encode loop pushes nothing. -/
theorem encode_fold_zero (vs : List Nat) (hall : ∀ v ∈ vs, v = 0) :
    vs.foldl buildStep ([], 0) = ([], 0) := by
  rw [buildStep_spec]
  have h1 : vs.dropWhile (fun v => v == 0) = [] :=
    List.dropWhile_eq_nil_iff.mpr (fun x hx => by simp [hall x hx])
  rw [h1]
  rfl

set_option maxHeartbeats 1000000 in
/-- DecimalCodec.encode on a matched string whose integer capture has a
nonzero leading digit: the payload holds the groups from the first nonzero
group upward, weight (|int|-1)/4, and dscale = |frac|. -/
theorem encode_canonical_core (sg : List Char) (I F s : List Char)
    (hmatch : decimalMatch s = some (sg, I, F))
    (hI : ∀ c ∈ I, isDigitChar c = true) (hF : ∀ c ∈ F, isDigitChar c = true)
    (hIne : I ≠ []) (hhead : I.headD '0' ≠ '0')
    (hIlen : I.length ≤ 131072) (hFlen : F.length ≤ 65535) :
    DecimalCodec.encode s =
      .ok ⟨(encGroups I F).length, (((I.length - 1) / 4 : Nat) : Int),
        if sg = ['-'] then NUMERIC_NEG else NUMERIC_POS, F.length,
        (encGroups I F).reverse⟩ := by
  have hdig : ∀ c ∈ I ++ (F ++ List.replicate
      (((F.length + 3) / 4) * 4 - F.length) '0'), isDigitChar c = true := by
    intro c hc
    rcases List.mem_append.mp hc with h | h
    · exact hI c h
    · rcases List.mem_append.mp h with h2 | h2
      · exact hF c h2
      · rw [(List.mem_replicate.mp h2).2]
        decide
  have hdsne : I ++ (F ++ List.replicate
      (((F.length + 3) / 4) * 4 - F.length) '0') ≠ [] := by
    intro h
    rcases List.append_eq_nil.mp h with ⟨h1, _⟩
    exact hIne h1
  have hhd : (I ++ (F ++ List.replicate
      (((F.length + 3) / 4) * 4 - F.length) '0')).headD '0' ≠ '0' := by
    obtain ⟨c0, I0, rfl⟩ : ∃ c0 I0, I = c0 :: I0 := by
      cases I with
      | nil => exact absurd rfl hIne
      | cons a l => exact ⟨a, l, rfl⟩
    simpa using hhead
  obtain ⟨hfold, hzlt⟩ := encode_fold_nzhead
    (I ++ (F ++ List.replicate (((F.length + 3) / 4) * 4 - F.length) '0'))
    hdig hdsne hhd
  have hDSlen : (I ++ (F ++ List.replicate
      (((F.length + 3) / 4) * 4 - F.length) '0')).length =
      I.length + ((F.length + 3) / 4) * 4 := by
    rw [List.length_append, List.length_append, List.length_replicate]
    omega
  have hN : (specChunks (I ++ (F ++ List.replicate
      (((F.length + 3) / 4) * 4 - F.length) '0'))).length ≤ 49153 := by
    rw [specChunks_length, hDSlen]
    omega
  have hWlen : (((specChunks (I ++ (F ++ List.replicate
      (((F.length + 3) / 4) * 4 - F.length) '0'))).map charsToNat).dropWhile
      (fun v => v == 0)).length ≤ (specChunks (I ++ (F ++ List.replicate
      (((F.length + 3) / 4) * 4 - F.length) '0'))).length := by
    rw [dropWhile_eq_drop_len, List.length_drop, List.length_map]
    omega
  have hrange : (((specChunks (I ++ (F ++ List.replicate
      (((F.length + 3) / 4) * 4 - F.length) '0'))).map charsToNat).dropWhile
      (fun v => v == 0)).length < 65536 ∧
      (-32768 : Int) ≤ ((((I.length - 1) / 4 : Nat) : Int)) ∧
      ((((I.length - 1) / 4 : Nat) : Int)) ≤ 32767 ∧ F.length < 65536 := by
    refine ⟨by omega, ?_, ?_, by omega⟩
    · exact le_trans (by norm_num) (Int.natCast_nonneg _)
    · exact_mod_cast (show (I.length - 1) / 4 ≤ 32767 from by omega)
  unfold DecimalCodec.encode
  rw [hmatch]
  dsimp only
  rw [encChunks_eq_specChunks, hfold]
  dsimp only
  rw [ite_ne_self, ite_ne_self, if_pos hrange]
  rfl

/-! ## Facts about the encoded digit string -/

theorem encDigitStr_digits (I F : List Char)
    (hI : ∀ c ∈ I, isDigitChar c = true) (hF : ∀ c ∈ F, isDigitChar c = true) :
    ∀ c ∈ encDigitStr I F, isDigitChar c = true := by
  intro c hc
  unfold encDigitStr padTo4 at hc
  rcases List.mem_append.mp hc with h | h
  · exact hI c h
  · rcases List.mem_append.mp h with h2 | h2
    · exact hF c h2
    · rw [(List.mem_replicate.mp h2).2]
      decide

theorem encDigitStr_length (I F : List Char) :
    (encDigitStr I F).length = I.length + (F.length + 3) / 4 * 4 := by
  unfold encDigitStr padTo4
  rw [List.length_append, List.length_append, List.length_replicate]
  omega

theorem encDigitStr_ne_nil (I F : List Char) (hIne : I ≠ []) : encDigitStr I F ≠ [] := by
  intro h
  unfold encDigitStr at h
  rcases List.append_eq_nil.mp h with ⟨h1, _⟩
  exact hIne h1

/-- Rendering the groups back (most significant first, each zero-padded to four
digits) reconstructs the digit string above the skipped leading zero groups,
left-padded with zeros to a four-character boundary. -/
theorem encGroups_render (I F : List Char) (z : Nat)
    (hzdef : z = (((specChunks (encDigitStr I F)).map charsToNat).takeWhile
      (fun v => v == 0)).length)
    (hd : ∀ c ∈ encDigitStr I F, isDigitChar c = true)
    (hz : z + 1 ≤ (specChunks (encDigitStr I F)).length) :
    ((encGroups I F).reverse.map (fun g => padStart4 (natToChars g))).flatten =
      List.replicate ((4 - ((encDigitStr I F).length - 4 * z) % 4) % 4) '0' ++
      (encDigitStr I F).take ((encDigitStr I F).length - 4 * z) := by
  have hgr : encGroups I F = ((specChunks (encDigitStr I F)).drop z).map charsToNat := by
    unfold encGroups
    rw [dropWhile_eq_drop_len, ← List.map_drop, hzdef]
  rw [hgr, List.reverse_map, List.map_map]
  have hcomp : ((fun g => padStart4 (natToChars g)) ∘ charsToNat) =
      (fun C => padStart4 (natToChars (charsToNat C))) := rfl
  rw [hcomp]
  exact render_drop_full (encDigitStr I F) hd z
    (by rw [specChunks_length] at hz; omega)

/-- The characters below the skipped leading zero groups are all zeros. -/
theorem encDigitStr_zero_tail (I F : List Char) (z : Nat)
    (hzdef : z = (((specChunks (encDigitStr I F)).map charsToNat).takeWhile
      (fun v => v == 0)).length)
    (hd : ∀ c ∈ encDigitStr I F, isDigitChar c = true)
    (hz : z + 1 ≤ (specChunks (encDigitStr I F)).length) :
    (encDigitStr I F).drop ((encDigitStr I F).length - 4 * z) =
      List.replicate (4 * z) '0' := by
  apply chunks_zero_drop _ hd z hz
  intro C hC
  have hmem : charsToNat C ∈ ((specChunks (encDigitStr I F)).map charsToNat).take z := by
    rw [← List.map_take]
    exact List.mem_map_of_mem charsToNat hC
  have htw : ((specChunks (encDigitStr I F)).map charsToNat).take z =
      ((specChunks (encDigitStr I F)).map charsToNat).takeWhile (fun v => v == 0) := by
    rw [hzdef, ← takeWhile_eq_take_len]
  rw [htw] at hmem
  have := List.mem_takeWhile_imp hmem
  simpa using this

/-- decode's pad-or-truncate of the rebuilt digit string: if two strings agree
up to trailing zeros, adjusting the first to the length of the second yields
the second. -/
theorem pad_or_truncate (v u : List Char) (n r s : Nat) (hn : n = u.length)
    (h : v ++ List.replicate r '0' = u ++ List.replicate s '0') :
    (if v.length < n then v ++ List.replicate (n - v.length) '0'
     else v.take n) = u := by
  subst hn
  have hlen : v.length + r = u.length + s := by
    have := congrArg List.length h
    simpa [List.length_append, List.length_replicate] using this
  by_cases hv : v.length < u.length
  · rw [if_pos hv]
    have key : (v ++ List.replicate (u.length - v.length) '0') ++ List.replicate s '0' =
        u ++ List.replicate s '0' := by
      rw [List.append_assoc, ← List.replicate_add,
          show u.length - v.length + s = r from by omega, h]
    exact List.append_cancel_right key
  · rw [if_neg hv]
    have h2 : (u ++ List.replicate s '0').take u.length = u := List.take_left u _
    calc v.take u.length
        = (v ++ List.replicate r '0').take u.length :=
          (List.take_append_of_le_length (by omega)).symm
      _ = u := by rw [h]; exact h2

set_option maxHeartbeats 1000000 in
/-- DecimalCodec.decode on the payload encoded from a canonical string with a
nonzero leading integer digit returns the sign, the integer digits and exactly
the original fraction digits. -/
theorem decode_canonical_core (sgn : Nat) (I F : List Char)
    (hsgn : sgn = NUMERIC_NEG ∨ sgn = NUMERIC_POS)
    (hI : ∀ c ∈ I, isDigitChar c = true) (hF : ∀ c ∈ F, isDigitChar c = true)
    (hIne : I ≠ []) (hhead : I.headD '0' ≠ '0') (hFne : F ≠ []) :
    DecimalCodec.decode (((I.length - 1) / 4 : Nat) : Int) sgn F.length
      (encGroups I F).reverse =
      .ok ((if sgn = NUMERIC_NEG then ['-'] else []) ++ I ++ '.' :: F) := by
  obtain ⟨c0, I0, rfl⟩ : ∃ c0 I0, I = c0 :: I0 := by
    cases I with
    | nil => exact absurd rfl hIne
    | cons a l => exact ⟨a, l, rfl⟩
  have hc0 : c0 ≠ '0' := by simpa using hhead
  have hd : ∀ c ∈ encDigitStr (c0 :: I0) F, isDigitChar c = true :=
    encDigitStr_digits _ _ hI hF
  have hDlen := encDigitStr_length (c0 :: I0) F
  have hne : encDigitStr (c0 :: I0) F ≠ [] := encDigitStr_ne_nil _ _ hIne
  have hhd : (encDigitStr (c0 :: I0) F).headD '0' ≠ '0' := by
    unfold encDigitStr
    simpa using hc0
  have hz := (encode_fold_nzhead (encDigitStr (c0 :: I0) F) hd hne hhd).2
  rw [List.length_map] at hz
  have hflat := encGroups_render (c0 :: I0) F _ rfl hd hz
  have hzero := encDigitStr_zero_tail (c0 :: I0) F _ rfl hd hz
  have hNval := specChunks_length (encDigitStr (c0 :: I0) F)
  have hF0 : ¬(F.length = 0) := by
    have := List.length_pos.mpr hFne
    omega
  unfold DecimalCodec.decode
  rw [if_pos hsgn]
  dsimp only
  rw [if_neg (show ¬(((((c0 :: I0).length - 1) / 4 : Nat) : Int) < 0) from by omega),
      if_pos (show (0 : Int) ≤ ((((c0 :: I0).length - 1) / 4 : Nat) : Int) from by omega),
      List.nil_append,
      show (((((c0 :: I0).length - 1) / 4 : Nat) : Int) + 1).toNat =
        ((c0 :: I0).length - 1) / 4 + 1 from by omega,
      hflat, if_neg hF0, if_neg hF0]
  generalize hZ : (((specChunks (encDigitStr (c0 :: I0) F)).map charsToNat).takeWhile
    (fun v => v == 0)).length = Z
  rw [hZ] at hz hzero
  have hz4 : 4 * Z + 1 ≤ (encDigitStr (c0 :: I0) F).length := by omega
  generalize hP : (4 - ((encDigitStr (c0 :: I0) F).length - 4 * Z) % 4) % 4 = P
  generalize hT : (encDigitStr (c0 :: I0) F).take
    ((encDigitStr (c0 :: I0) F).length - 4 * Z) = T
  have hTD : T ++ List.replicate (4 * Z) '0' = encDigitStr (c0 :: I0) F := by
    rw [← hT, ← hzero]
    exact List.take_append_drop _ _
  have hIpos : 0 < (c0 :: I0).length := by simp
  have hn : F.length + (((c0 :: I0).length - 1) / 4 + 1) * 4 =
      (List.replicate P '0' ++ ((c0 :: I0) ++ F)).length := by
    rw [List.length_append, List.length_append, List.length_replicate]
    omega
  have hkey : (List.replicate P '0' ++ T) ++ List.replicate (4 * Z) '0' =
      (List.replicate P '0' ++ ((c0 :: I0) ++ F)) ++
        List.replicate ((F.length + 3) / 4 * 4 - F.length) '0' := by
    rw [List.append_assoc, hTD,
        show encDigitStr (c0 :: I0) F = (c0 :: I0) ++
          (F ++ List.replicate ((F.length + 3) / 4 * 4 - F.length) '0') from rfl]
    simp [List.append_assoc]
  rw [pad_or_truncate (List.replicate P '0' ++ T)
      (List.replicate P '0' ++ ((c0 :: I0) ++ F))
      (F.length + (((c0 :: I0).length - 1) / 4 + 1) * 4) (4 * Z)
      ((F.length + 3) / 4 * 4 - F.length) hn hkey]
  rw [show (List.replicate P '0' ++ ((c0 :: I0) ++ F)).length - F.length =
      P + (c0 :: I0).length from by
    simp only [List.length_append, List.length_replicate, List.length_cons]
    omega]
  rw [← List.append_assoc,
      List.take_left' (show (List.replicate P '0' ++ (c0 :: I0)).length =
        P + (c0 :: I0).length from by
        simp [List.length_append, List.length_replicate]),
      List.drop_left' (show (List.replicate P '0' ++ (c0 :: I0)).length =
        P + (c0 :: I0).length from by
        simp [List.length_append, List.length_replicate])]
  rw [dropWhile_replicate_append (fun c => c == '0') '0' (by decide) (c0 :: I0) P,
      List.dropWhile_cons,
      if_neg (show ¬((c0 == '0') = true) from by simpa using hc0)]

/-- Decimal round trip on a canonical string whose integer part starts with a
nonzero digit. -/
theorem roundTrip_canonical_nzhead (neg : Bool) (I F : List Char)
    (hI : ∀ c ∈ I, isDigitChar c = true) (hF : ∀ c ∈ F, isDigitChar c = true)
    (hFne : F ≠ []) (hIne : I ≠ []) (hhead : I.headD '0' ≠ '0')
    (hIlen : I.length ≤ 131072) (hFlen : F.length ≤ 65535) :
    DecimalCodec.roundTrip (renderDec neg I F) = .ok (renderDec neg I F) := by
  have hmatch := decimalMatch_canonical neg I F hI hF hFne (Or.inr ⟨hIne, hhead⟩)
  have henc := encode_canonical_core (if neg then ['-'] else []) I F (renderDec neg I F)
    hmatch hI hF hIne hhead hIlen hFlen
  have hdec := decode_canonical_core
    (if (if neg then ['-'] else []) = ['-'] then NUMERIC_NEG else NUMERIC_POS) I F
    (by cases neg <;> decide) hI hF hIne hhead hFne
  unfold DecimalCodec.roundTrip
  rw [henc]
  show DecimalCodec.decodePayload _ = _
  unfold DecimalCodec.decodePayload
  dsimp only
  rw [hdec]
  cases neg <;> rfl

theorem dropWhile_replicate (p : Char → Bool) (a : Char) (hp : p a = true) :
    ∀ k, (List.replicate k a).dropWhile p = [] := by
  intro k
  induction k with
  | zero => rfl
  | succ k ih =>
    rw [List.replicate_succ, List.dropWhile_cons, if_pos hp]
    exact ih

/-- DecimalCodec.encode on a matched string "0.00...0": every group value is
zero, so nothing is pushed and the payload is empty with weight 0. -/
theorem encode_zero_case (sg F s : List Char)
    (hmatch : decimalMatch s = some (sg, ['0'], F))
    (hFz : ∀ c ∈ F, c = '0') (hFlen : F.length ≤ 65535) :
    DecimalCodec.encode s = .ok ⟨0, ((0 : Nat) : Int),
      if sg = ['-'] then NUMERIC_NEG else NUMERIC_POS, F.length, []⟩ := by
  have hall : ∀ v ∈ ((specChunks (['0'] ++ (F ++ List.replicate
      (((F.length + 3) / 4) * 4 - F.length) '0'))).map charsToNat), v = 0 := by
    intro v hv
    obtain ⟨C, hC, rfl⟩ := List.mem_map.mp hv
    apply charsToNat_all_zero
    intro c hc
    have hcds := (specChunks_mem _ C hC).2.2 c hc
    rcases List.mem_append.mp hcds with h | h
    · simpa using h
    · rcases List.mem_append.mp h with h2 | h2
      · exact hFz c h2
      · exact (List.mem_replicate.mp h2).2
  have hrange : (([] : List Nat)).length < 65536 ∧
      (-32768 : Int) ≤ (((((['0'] : List Char)).length - 1) / 4 : Nat) : Int) ∧
      (((((['0'] : List Char)).length - 1) / 4 : Nat) : Int) ≤ 32767 ∧
      F.length < 65536 := by
    refine ⟨by decide, by decide, by decide, by omega⟩
  unfold DecimalCodec.encode
  rw [hmatch]
  dsimp only
  rw [encChunks_eq_specChunks, encode_fold_zero _ hall]
  simp only [List.length_nil]
  rw [ite_ne_self, ite_ne_self, if_pos hrange]
  rfl

/-- DecimalCodec.decode on the empty-groups payload with weight 0 and dscale k
returns "0." followed by k zeros (with the sign prefix). -/
theorem decode_zero_groups (sgn : Nat) (k : Nat)
    (hsgn : sgn = NUMERIC_NEG ∨ sgn = NUMERIC_POS) (hk : k ≠ 0) :
    DecimalCodec.decode ((0 : Nat) : Int) sgn k [] =
      .ok ((if sgn = NUMERIC_NEG then ['-'] else []) ++ ['0'] ++
        '.' :: List.replicate k '0') := by
  unfold DecimalCodec.decode
  rw [if_pos hsgn]
  dsimp only
  rw [if_neg (show ¬(((0 : Nat) : Int) < 0) from by omega),
      if_pos (show (0 : Int) ≤ ((0 : Nat) : Int) from by omega),
      show (((0 : Nat) : Int) + 1).toNat = 1 from by omega,
      if_neg hk, if_neg hk]
  simp only [List.map_nil, List.flatten_nil, List.append_nil, List.nil_append,
    List.length_nil]
  rw [if_pos (show 0 < k + 1 * 4 from by omega),
      show k + 1 * 4 - 0 = k + 4 from by omega,
      List.length_replicate,
      show k + 4 - k = 4 from by omega,
      List.take_replicate, List.drop_replicate,
      show min 4 (k + 4) = 4 from by omega,
      show k + 4 - 4 = k from by omega,
      dropWhile_replicate (fun c => c == '0') '0' (by decide) 4]

/-- Decimal round trip on a canonical all-zero string "0.0...0". -/
theorem roundTrip_canonical_zero (neg : Bool) (F : List Char)
    (hFne : F ≠ []) (hFz : ∀ c ∈ F, c = '0') (hFlen : F.length ≤ 65535) :
    DecimalCodec.roundTrip (renderDec neg ['0'] F) = .ok (renderDec neg ['0'] F) := by
  have hF : ∀ c ∈ F, isDigitChar c = true := by
    intro c hc
    rw [hFz c hc]
    decide
  have hmatch := decimalMatch_canonical neg ['0'] F (by decide) hF hFne (Or.inl rfl)
  have henc := encode_zero_case (if neg then ['-'] else []) F (renderDec neg ['0'] F)
    hmatch hFz hFlen
  have hk : F.length ≠ 0 := by
    have := List.length_pos.mpr hFne
    omega
  have hdec := decode_zero_groups
    (if (if neg then ['-'] else []) = ['-'] then NUMERIC_NEG else NUMERIC_POS)
    F.length (by cases neg <;> decide) hk
  unfold DecimalCodec.roundTrip
  rw [henc]
  show DecimalCodec.decodePayload _ = _
  unfold DecimalCodec.decodePayload
  dsimp only
  rw [hdec, ← all_zero_eq_replicate hFz]
  cases neg <;> rfl

/-! ## The stripped case: integer part "0" with a nonzero fraction group -/

theorem takeWhile_zero_lt (vs : List Nat) (hnz : ¬ ∀ v ∈ vs, v = 0) :
    (vs.takeWhile (fun v => v == 0)).length + 1 ≤ vs.length := by
  have h1 := congrArg List.length (takeWhile_eq_take_len (fun v => v == 0) vs)
  rw [List.length_take] at h1
  rcases Nat.lt_or_ge (vs.takeWhile (fun v => v == 0)).length vs.length with h | h
  · omega
  · exfalso
    apply hnz
    intro v hv
    have hall : vs.takeWhile (fun v => v == 0) = vs := by
      rw [takeWhile_eq_take_len,
          show (vs.takeWhile (fun v => v == 0)).length = vs.length from by omega,
          List.take_length]
    have := List.mem_takeWhile_imp (p := fun v => v == 0) (by rw [hall]; exact hv)
    simpa using this

/-- If all groups above position j are zero, the characters of the digit
string above the low 4j positions are all zeros. -/
theorem chunks_zero_take (ds : List Char) (hd : ∀ c ∈ ds, isDigitChar c = true) (j : Nat)
    (h0 : ∀ C ∈ (specChunks ds).drop j, charsToNat C = 0) :
    ds.take (ds.length - 4 * j) = List.replicate (ds.length - 4 * j) '0' := by
  have hall : ∀ c ∈ ds.take (ds.length - 4 * j), c = '0' := by
    intro c hc
    have hc2 : c ∈ ((specChunks (ds.take (ds.length - 4 * j))).reverse).flatten := by
      rw [specChunks_flatten]
      exact hc
    obtain ⟨C, hCmem, hcC⟩ := List.mem_flatten.mp hc2
    have hCs : C ∈ specChunks (ds.take (ds.length - 4 * j)) := List.mem_reverse.mp hCmem
    refine all_zero_of_charsToNat_zero C ?_
      (h0 C (by rw [specChunks_drop]; exact hCs)) c hcC
    intro x hx
    have hxm := (specChunks_mem _ C hCs).2.2 x hx
    exact hd x (List.mem_of_mem_take hxm)
  have hlen : (ds.take (ds.length - 4 * j)).length = ds.length - 4 * j := by
    rw [List.length_take]
    omega
  rw [all_zero_eq_replicate hall, hlen]

theorem padTo4_len4 (F : List Char) : (padTo4 F).length % 4 = 0 := by
  unfold padTo4
  rw [List.length_append, List.length_replicate]
  omega

/-- The structural facts about the encode loop on "0.<frac>" with a nonzero
fraction group: the skipped-zero count z is short of the group count, the
kept groups end in the zero integer group, the strip is proper and nonempty,
and the group counts add up. -/
theorem encGroups_zero_head_facts (F : List Char)
    (hF : ∀ c ∈ F, isDigitChar c = true) (hFnz : ¬ ∀ c ∈ F, c = '0') :
    (((specChunks (encDigitStr ['0'] F)).map charsToNat).takeWhile
      (fun v => v == 0)).length + 1 ≤
      ((specChunks (encDigitStr ['0'] F)).map charsToNat).length ∧
    (encGroups ['0'] F).getLast? = some 0 ∧
    (dtz (encGroups ['0'] F)).length + 1 ≤ (encGroups ['0'] F).length ∧
    1 ≤ (dtz (encGroups ['0'] F)).length ∧
    (encGroups ['0'] F).length + (((specChunks (encDigitStr ['0'] F)).map
      charsToNat).takeWhile (fun v => v == 0)).length =
      ((specChunks (encDigitStr ['0'] F)).map charsToNat).length := by
  have hd : ∀ c ∈ encDigitStr ['0'] F, isDigitChar c = true :=
    encDigitStr_digits _ _ (by decide) hF
  have hnz : ¬ ∀ v ∈ (specChunks (encDigitStr ['0'] F)).map charsToNat, v = 0 := by
    intro hall
    apply hFnz
    intro c hc
    have hcD : c ∈ encDigitStr ['0'] F := by
      unfold encDigitStr padTo4
      simp [hc]
    have hc2 : c ∈ ((specChunks (encDigitStr ['0'] F)).reverse).flatten := by
      rw [specChunks_flatten]
      exact hcD
    obtain ⟨C, hCmem, hcC⟩ := List.mem_flatten.mp hc2
    have hCs : C ∈ specChunks (encDigitStr ['0'] F) := List.mem_reverse.mp hCmem
    refine all_zero_of_charsToNat_zero C ?_
      (hall _ (List.mem_map_of_mem charsToNat hCs)) c hcC
    intro x hx
    exact hd x ((specChunks_mem _ C hCs).2.2 x hx)
  have hzlt := takeWhile_zero_lt _ hnz
  have hsplit : specChunks (encDigitStr ['0'] F) = specChunks (padTo4 F) ++ [['0']] := by
    rw [show encDigitStr ['0'] F = ['0'] ++ padTo4 F from rfl,
        specChunks_append (padTo4 F) (padTo4_len4 F) ['0'], specChunks_single]
  have hlast : ((specChunks (encDigitStr ['0'] F)).map charsToNat).getLast? = some 0 := by
    rw [hsplit, List.map_append]
    rw [show (([['0']] : List (List Char)).map charsToNat) = [0] from by decide]
    exact List.getLast?_concat _
  have hlastW : (encGroups ['0'] F).getLast? = some 0 := by
    unfold encGroups
    rw [dropWhile_eq_drop_len, getLast_drop_eq _ _ (by omega), hlast]
  have hWlen : (encGroups ['0'] F).length +
      (((specChunks (encDigitStr ['0'] F)).map charsToNat).takeWhile
        (fun v => v == 0)).length =
      ((specChunks (encDigitStr ['0'] F)).map charsToNat).length := by
    unfold encGroups
    rw [dropWhile_eq_drop_len, List.length_drop]
    omega
  have hlt := dtz_lt_of_getLast_zero _ hlastW
  have hpos : 1 ≤ (dtz (encGroups ['0'] F)).length := by
    cases hW : encGroups ['0'] F with
    | nil =>
      exfalso
      have := congrArg List.length hW
      simp only [List.length_nil] at this
      omega
    | cons w tl =>
      have hw : (w == 0) = false := by
        apply dropWhile_head_false (fun v => v == 0)
          ((specChunks (encDigitStr ['0'] F)).map charsToNat) w tl
        rw [← hW]
        rfl
      have hp := List.length_pos.mpr (dtz_ne_nil_of_head w tl (by simpa using hw))
      omega
  exact ⟨hzlt, hlastW, hlt, hpos, hWlen⟩

set_option maxHeartbeats 1000000 in
/-- DecimalCodec.encode on a matched string "0.<frac>" with a nonzero fraction
group: the integer group 0 is stripped as a trailing zero group, giving a
negative weight and only the kept fraction groups. -/
theorem encode_zero_head (sg F s : List Char)
    (hmatch : decimalMatch s = some (sg, ['0'], F))
    (hF : ∀ c ∈ F, isDigitChar c = true) (hFnz : ¬ ∀ c ∈ F, c = '0')
    (hFlen : F.length ≤ 65535) :
    DecimalCodec.encode s = .ok ⟨(dtz (encGroups ['0'] F)).length,
      ((dtz (encGroups ['0'] F)).length : Int) - ((encGroups ['0'] F).length : Int),
      if sg = ['-'] then NUMERIC_NEG else NUMERIC_POS, F.length,
      (dtz (encGroups ['0'] F)).reverse⟩ := by
  obtain ⟨hzlt, hlastW, hlt, hpos, hWlen⟩ := encGroups_zero_head_facts F hF hFnz
  have hvs_len : ((specChunks (encDigitStr ['0'] F)).map charsToNat).length ≤ 16385 := by
    rw [List.length_map, specChunks_length, encDigitStr_length, List.length_singleton]
    omega
  have hne1 : (dtz (encGroups ['0'] F)).length ≠ (encGroups ['0'] F).length := by omega
  have htake : (encGroups ['0'] F).take ((dtz (encGroups ['0'] F)).length) =
      dtz (encGroups ['0'] F) := by
    obtain ⟨t, ht, _⟩ := dtz_decomp (encGroups ['0'] F)
    calc (encGroups ['0'] F).take ((dtz (encGroups ['0'] F)).length)
        = (dtz (encGroups ['0'] F) ++ t).take ((dtz (encGroups ['0'] F)).length) := by
          rw [← ht]
      _ = dtz (encGroups ['0'] F) := List.take_left _ _
  have hrange : (dtz (encGroups ['0'] F)).length < 65536 ∧
      (-32768 : Int) ≤ ((dtz (encGroups ['0'] F)).length : Int) -
        ((encGroups ['0'] F).length : Int) ∧
      ((dtz (encGroups ['0'] F)).length : Int) -
        ((encGroups ['0'] F).length : Int) ≤ 32767 ∧
      F.length < 65536 := by
    refine ⟨by omega, by omega, by omega, by omega⟩
  unfold DecimalCodec.encode
  rw [hmatch]
  dsimp only
  rw [encChunks_eq_specChunks,
      show (['0'] : List Char) ++ (F ++ List.replicate
        (((F.length + 3) / 4) * 4 - F.length) '0') = encDigitStr ['0'] F from rfl,
      buildStep_spec]
  dsimp only
  rw [show ((specChunks (encDigitStr ['0'] F)).map charsToNat).dropWhile
      (fun v => v == 0) = encGroups ['0'] F from rfl]
  rw [if_pos hne1, if_pos hne1, htake, if_pos hrange]

/-- Rendering the kept groups of "0.<frac>" (most significant first, each
zero-padded to four digits) reconstructs the chunk segment between the skipped
low zero groups and the stripped high zero groups. -/
theorem encGroups_dtz_render (F : List Char) (z lnz : Nat)
    (hz : z = (((specChunks (encDigitStr ['0'] F)).map charsToNat).takeWhile
      (fun v => v == 0)).length)
    (hlnz : lnz = (dtz (encGroups ['0'] F)).length)
    (hd : ∀ c ∈ encDigitStr ['0'] F, isDigitChar c = true)
    (hbound : z + lnz + 1 ≤ (specChunks (encDigitStr ['0'] F)).length) :
    ((dtz (encGroups ['0'] F)).reverse.map (fun g => padStart4 (natToChars g))).flatten =
      ((encDigitStr ['0'] F).take ((encDigitStr ['0'] F).length - 4 * z)).drop
        ((encDigitStr ['0'] F).length - 4 * z - 4 * lnz) := by
  have h1 : dtz (encGroups ['0'] F) =
      (((specChunks (encDigitStr ['0'] F)).drop z).take lnz).map charsToNat := by
    obtain ⟨t, ht, _⟩ := dtz_decomp (encGroups ['0'] F)
    have htake : (encGroups ['0'] F).take lnz = dtz (encGroups ['0'] F) := by
      rw [hlnz]
      calc (encGroups ['0'] F).take ((dtz (encGroups ['0'] F)).length)
          = (dtz (encGroups ['0'] F) ++ t).take ((dtz (encGroups ['0'] F)).length) := by
            rw [← ht]
        _ = dtz (encGroups ['0'] F) := List.take_left _ _
    rw [← htake]
    have hW : encGroups ['0'] F =
        ((specChunks (encDigitStr ['0'] F)).drop z).map charsToNat := by
      unfold encGroups
      rw [dropWhile_eq_drop_len, ← List.map_drop, hz]
    rw [hW, List.map_take]
  rw [h1, List.reverse_map, List.map_map]
  rw [show ((fun g => padStart4 (natToChars g)) ∘ charsToNat) =
      (fun C => padStart4 (natToChars (charsToNat C))) from rfl]
  exact render_take_partial (encDigitStr ['0'] F) hd z lnz hbound

set_option maxHeartbeats 1600000 in
/-- DecimalCodec.decode on the payload encoded from "0.<frac>" with a nonzero
fraction group returns the sign, integer part "0" and exactly the original
fraction digits. -/
theorem decode_zero_head (sgn : Nat) (F : List Char)
    (hsgn : sgn = NUMERIC_NEG ∨ sgn = NUMERIC_POS)
    (hF : ∀ c ∈ F, isDigitChar c = true) (hFnz : ¬ ∀ c ∈ F, c = '0')
    (hFne : F ≠ []) :
    DecimalCodec.decode
      (((dtz (encGroups ['0'] F)).length : Int) - ((encGroups ['0'] F).length : Int))
      sgn F.length (dtz (encGroups ['0'] F)).reverse =
      .ok ((if sgn = NUMERIC_NEG then ['-'] else []) ++ ['0'] ++ '.' :: F) := by
  obtain ⟨hzlt, hlastW, hlt, hpos, hWlen⟩ := encGroups_zero_head_facts F hF hFnz
  have hd : ∀ c ∈ encDigitStr ['0'] F, isDigitChar c = true :=
    encDigitStr_digits _ _ (by decide) hF
  have hDlen : (encDigitStr ['0'] F).length = 1 + (F.length + 3) / 4 * 4 := by
    rw [encDigitStr_length, List.length_singleton]
  have hvsN : ((specChunks (encDigitStr ['0'] F)).map charsToNat).length =
      (specChunks (encDigitStr ['0'] F)).length := List.length_map _ _
  have hNval := specChunks_length (encDigitStr ['0'] F)
  have hflat := encGroups_dtz_render F _ _ rfl rfl hd (by omega)
  have hzero := encDigitStr_zero_tail ['0'] F _ rfl hd (by omega)
  have hF0 : ¬(F.length = 0) := by
    have := List.length_pos.mpr hFne
    omega
  have h0 : ∀ C ∈ (specChunks (encDigitStr ['0'] F)).drop
      ((((specChunks (encDigitStr ['0'] F)).map charsToNat).takeWhile
        (fun v => v == 0)).length + (dtz (encGroups ['0'] F)).length),
      charsToNat C = 0 := by
    intro C hC
    have hm : charsToNat C ∈ ((specChunks (encDigitStr ['0'] F)).map charsToNat).drop
        ((((specChunks (encDigitStr ['0'] F)).map charsToNat).takeWhile
          (fun v => v == 0)).length + (dtz (encGroups ['0'] F)).length) := by
      rw [← List.map_drop]
      exact List.mem_map_of_mem charsToNat hC
    rw [← List.drop_drop] at hm
    have hWdrop : ((specChunks (encDigitStr ['0'] F)).map charsToNat).drop
        ((((specChunks (encDigitStr ['0'] F)).map charsToNat).takeWhile
          (fun v => v == 0)).length) = encGroups ['0'] F := by
      unfold encGroups
      rw [dropWhile_eq_drop_len]
    rw [hWdrop] at hm
    obtain ⟨t, ht, htz⟩ := dtz_decomp (encGroups ['0'] F)
    have hdrop_t : (encGroups ['0'] F).drop ((dtz (encGroups ['0'] F)).length) = t := by
      calc (encGroups ['0'] F).drop ((dtz (encGroups ['0'] F)).length)
          = (dtz (encGroups ['0'] F) ++ t).drop ((dtz (encGroups ['0'] F)).length) := by
            rw [← ht]
        _ = t := List.drop_left' rfl
    rw [hdrop_t] at hm
    exact htz _ hm
  have hpre := chunks_zero_take (encDigitStr ['0'] F) hd
    ((((specChunks (encDigitStr ['0'] F)).map charsToNat).takeWhile
      (fun v => v == 0)).length + (dtz (encGroups ['0'] F)).length) h0
  unfold DecimalCodec.decode
  rw [if_pos hsgn]
  dsimp only
  rw [if_pos (show (((dtz (encGroups ['0'] F)).length : Int) -
        ((encGroups ['0'] F).length : Int)) < 0 from by omega),
      if_neg (show ¬((0 : Int) ≤ ((dtz (encGroups ['0'] F)).length : Int) -
        ((encGroups ['0'] F).length : Int)) from by omega),
      show (-((((dtz (encGroups ['0'] F)).length : Int) -
        ((encGroups ['0'] F).length : Int)) + 1)).toNat =
        (encGroups ['0'] F).length - (dtz (encGroups ['0'] F)).length - 1 from by omega,
      hflat, if_neg hF0, if_neg hF0]
  generalize hZg : (((specChunks (encDigitStr ['0'] F)).map charsToNat).takeWhile
    (fun v => v == 0)).length = z
  rw [hZg] at hzlt hWlen hzero hpre
  generalize hLg : (dtz (encGroups ['0'] F)).length = lnz
  rw [hLg] at hlt hpos hpre
  generalize hWg : (encGroups ['0'] F).length = b
  rw [hWg] at hlt hWlen
  generalize hSg : ((encDigitStr ['0'] F).take ((encDigitStr ['0'] F).length - 4 * z)).drop
    ((encDigitStr ['0'] F).length - 4 * z - 4 * lnz) = S
  have hE1 : (encDigitStr ['0'] F).take ((encDigitStr ['0'] F).length - 4 * z) ++
      List.replicate (4 * z) '0' = encDigitStr ['0'] F := by
    rw [← hzero]
    exact List.take_append_drop _ _
  have htt2 : ((encDigitStr ['0'] F).take ((encDigitStr ['0'] F).length - 4 * z)).take
      ((encDigitStr ['0'] F).length - 4 * z - 4 * lnz) =
      (encDigitStr ['0'] F).take ((encDigitStr ['0'] F).length - 4 * z - 4 * lnz) := by
    rw [List.take_take,
        show min ((encDigitStr ['0'] F).length - 4 * z - 4 * lnz)
          ((encDigitStr ['0'] F).length - 4 * z) =
          (encDigitStr ['0'] F).length - 4 * z - 4 * lnz from by omega]
  have hE2 : (encDigitStr ['0'] F).take
      ((encDigitStr ['0'] F).length - 4 * z - 4 * lnz) ++ S =
      (encDigitStr ['0'] F).take ((encDigitStr ['0'] F).length - 4 * z) := by
    rw [← hSg, ← htt2]
    exact List.take_append_drop _ _
  have hpre2 : (encDigitStr ['0'] F).take
      ((encDigitStr ['0'] F).length - 4 * z - 4 * lnz) =
      List.replicate ((encDigitStr ['0'] F).length - 4 * z - 4 * lnz) '0' := by
    rw [show (encDigitStr ['0'] F).length - 4 * z - 4 * lnz =
        (encDigitStr ['0'] F).length - 4 * (z + lnz) from by omega]
    exact hpre
  have hstep1 : ((encDigitStr ['0'] F).take
      ((encDigitStr ['0'] F).length - 4 * z - 4 * lnz) ++ S) ++
      List.replicate (4 * z) '0' = encDigitStr ['0'] F := by
    rw [hE2, hE1]
  have hstep2 : (List.replicate ((encDigitStr ['0'] F).length - 4 * z - 4 * lnz) '0' ++ S)
      ++ List.replicate (4 * z) '0' = encDigitStr ['0'] F := by
    rw [← hpre2]
    exact hstep1
  have hg1 : 1 ≤ (encDigitStr ['0'] F).length - 4 * z - 4 * lnz := by omega
  have hsplitrep : List.replicate ((encDigitStr ['0'] F).length - 4 * z - 4 * lnz) '0' =
      '0' :: List.replicate ((encDigitStr ['0'] F).length - 4 * z - 4 * lnz - 1) '0' := by
    rw [show (encDigitStr ['0'] F).length - 4 * z - 4 * lnz =
        ((encDigitStr ['0'] F).length - 4 * z - 4 * lnz - 1) + 1 from by omega,
        List.replicate_succ, Nat.add_sub_cancel]
  have hE3 : encDigitStr ['0'] F =
      '0' :: (F ++ List.replicate ((F.length + 3) / 4 * 4 - F.length) '0') := rfl
  have hbody : (List.replicate ((encDigitStr ['0'] F).length - 4 * z - 4 * lnz - 1) '0'
      ++ S) ++ List.replicate (4 * z) '0' =
      F ++ List.replicate ((F.length + 3) / 4 * 4 - F.length) '0' := by
    have h2 := hstep2
    rw [hsplitrep, hE3] at h2
    simp only [List.cons_append] at h2
    exact (List.cons.inj h2).2
  have hkey : (List.replicate ((b - lnz - 1) * 4) '0' ++ S) ++
      List.replicate (4 * z) '0' =
      F ++ List.replicate ((F.length + 3) / 4 * 4 - F.length) '0' := by
    rw [show (b - lnz - 1) * 4 =
        (encDigitStr ['0'] F).length - 4 * z - 4 * lnz - 1 from by omega]
    exact hbody
  rw [pad_or_truncate (List.replicate ((b - lnz - 1) * 4) '0' ++ S) F
      (F.length + 0) (4 * z) ((F.length + 3) / 4 * 4 - F.length)
      (by omega) hkey]
  rw [Nat.sub_self, List.take_zero, List.drop_zero, List.dropWhile_nil]

/-- Decimal round trip on a canonical string "0.<frac>" with some nonzero
fraction digit. -/
theorem roundTrip_canonical_zerohead (neg : Bool) (F : List Char)
    (hF : ∀ c ∈ F, isDigitChar c = true) (hFne : F ≠ [])
    (hFnz : ¬ ∀ c ∈ F, c = '0') (hFlen : F.length ≤ 65535) :
    DecimalCodec.roundTrip (renderDec neg ['0'] F) = .ok (renderDec neg ['0'] F) := by
  have hmatch := decimalMatch_canonical neg ['0'] F (by decide) hF hFne (Or.inl rfl)
  have henc := encode_zero_head (if neg then ['-'] else []) F (renderDec neg ['0'] F)
    hmatch hF hFnz hFlen
  have hdec := decode_zero_head
    (if (if neg then ['-'] else []) = ['-'] then NUMERIC_NEG else NUMERIC_POS)
    F (by cases neg <;> decide) hF hFnz hFne
  unfold DecimalCodec.roundTrip
  rw [henc]
  show DecimalCodec.decodePayload _ = _
  unfold DecimalCodec.decodePayload
  dsimp only
  rw [hdec]
  cases neg <;> rfl

/-- Decimal round trip on every canonical decimal string. -/
theorem roundTrip_canonical (neg : Bool) (I F : List Char) (h : CanonicalDec I F) :
    DecimalCodec.roundTrip (renderDec neg I F) = .ok (renderDec neg I F) := by
  obtain ⟨hI, hF, hFne, hhead, hIlen, hFlen⟩ := h
  rcases hhead with h0 | ⟨hIne, hhd⟩
  · subst h0
    by_cases hFz : ∀ c ∈ F, c = '0'
    · exact roundTrip_canonical_zero neg F hFne hFz hFlen
    · exact roundTrip_canonical_zerohead neg F hF hFne hFz hFlen
  · exact roundTrip_canonical_nzhead neg I F hI hF hFne hIne hhd hIlen hFlen

/-- C5: counterexample to the original claim. The strings "+1.5" and "007.5"
are accepted by the Decimal codec's encode (the claim's domain explicitly
includes a leading '+' sign and leading zeros), but decode(encode(x)) returns
"1.5" and "7.5" rather than x. -/
theorem decimal_roundtrip_plus_counterexample :
    DecimalCodec.roundTrip ['+', '1', '.', '5'] = .ok ['1', '.', '5'] ∧
    DecimalCodec.roundTrip ['+', '1', '.', '5'] ≠ .ok ['+', '1', '.', '5'] ∧
    DecimalCodec.roundTrip ['0', '0', '7', '.', '5'] = .ok ['7', '.', '5'] ∧
    DecimalCodec.roundTrip ['0', '0', '7', '.', '5'] ≠ .ok ['0', '0', '7', '.', '5'] := by
  refine ⟨rfl, ?_, rfl, ?_⟩
  · intro h
    rw [show DecimalCodec.roundTrip ['+', '1', '.', '5'] =
        .ok ['1', '.', '5'] from rfl] at h
    exact absurd (Except.ok.inj h) (by decide)
  · intro h
    rw [show DecimalCodec.roundTrip ['0', '0', '7', '.', '5'] =
        .ok ['7', '.', '5'] from rfl] at h
    exact absurd (Except.ok.inj h) (by decide)

/-- C5 (amended): decode(encode(x)) == x holds for the BigInt codec for every
integer x with |x| < 10000^32768 (so ndigits and weight fit the u16/i16 header
fields), and for the Decimal codec for every canonical string: an optional '-'
sign, an integer part that is "0" or starts with a nonzero digit, a literal
'.', at least one fraction digit, at most 131072 integer digits and at most
65535 fraction digits. -/
theorem codec_roundtrip_amended :
    (∀ x : Int, x.natAbs < 10000 ^ 32768 → BigIntCodec.roundTrip x = .ok x) ∧
    (∀ (neg : Bool) (I F : List Char), CanonicalDec I F →
      DecimalCodec.roundTrip (renderDec neg I F) = .ok (renderDec neg I F)) :=
  ⟨fun x hx => bigIntRoundTrip x hx, fun neg I F h => roundTrip_canonical neg I F h⟩

/-- Witness for the amended C5 at the concrete inputs -40000 and "1.5". -/
theorem codec_roundtrip_amended_witness :
    BigIntCodec.roundTrip (-40000) = .ok (-40000) ∧
    DecimalCodec.roundTrip (renderDec false ['1'] ['5']) =
      .ok (renderDec false ['1'] ['5']) := by
  constructor
  · apply codec_roundtrip_amended.1
    have h1 : ((-40000 : Int)).natAbs = 40000 := rfl
    have h2 : (10000 : Nat) ^ 2 ≤ 10000 ^ 32768 :=
      Nat.pow_le_pow_right (by norm_num) (by norm_num)
    have h3 : (40000 : Nat) < 10000 ^ 2 := by norm_num
    omega
  · exact codec_roundtrip_amended.2 false ['1'] ['5']
      ⟨by decide, by decide, by decide, Or.inr ⟨by decide, by decide⟩, by decide, by decide⟩
